import Mathlib

/-!
Verification development for the NDNx hash-table library (`src/lib/hashtb.h`).

The repository ships only the header `hashtb.h`; the implementation file
(`hashtb.c`) and `common.h` are not part of the sources.  The header gives the
data-structure layouts (`struct Node`, `struct Hashtb`, `struct
Hashtb_enumerator`, `struct Stack`), the validation forms `CHECKHTE` /
`MARKHTE`, and the documented contracts of the operations.  The operations
themselves are therefore modelled from the specification, staying as close as
possible to the documented behaviour.  Machine pointers are modelled as natural
numbers (allocation identities / addresses); byte strings are lists of
naturals; fallible allocation is an explicit boolean oracle.
-/

namespace HashtbSpec

/-- Modelled from the spec: a key is the sequence of `keysize` bytes passed as
`(const void *key, size_t keysize)`; a byte is a natural number. -/
abbrev Key := List Nat

/-- Modelled from the spec (struct `Node` of `hashtb.h` plus the entry layout
described in the DATA MODEL section; `hashtb.c` is not in the sources): one
hash-table entry.  `eid` is the allocation identity of the node (distinct
entries live at distinct addresses), `hash` is the digest cached at insertion,
`key` holds the `keysize` key bytes, `ext` the `extsize` extension bytes that
follow them, and `data` the `item_size`-byte user-data region. -/
structure Entry where
  eid : Nat
  hash : Nat
  key : Key
  ext : List Nat
  data : List Nat
deriving DecidableEq

/-- Modelled from struct `Hashtb_param` of `hashtb.h`: the saved client
parameters.  The `finalize` function pointer is modelled by its address
(`none` models a NULL callback), `finalize_data` by its address. -/
structure Hashtb_param where
  finalize : Option Nat
  finalize_data : Nat
  orders : Int
deriving DecidableEq

/-- Modelled from the spec: the defaults used when `hashtb_create` receives a
NULL `param` (finalize NULL, finalize_data NULL, orders 0). -/
def defaultParam : Hashtb_param := { finalize := none, finalize_data := 0, orders := 0 }

/-- Modelled from struct `Hashtb` of `hashtb.h` (`hashtb.c` is not in the
sources): the table owns the bucket array (each bucket a chain of entries),
the fixed per-entry data size, the live-entry count `n`, the open-enumerator
count `refcount`, the deferred-cleanup list, and the saved parameters.
`nextId` models the allocator: the identity handed to the next new node. -/
structure Hashtb where
  bucket : List (List Entry)
  item_size : Nat
  n : Nat
  refcount : Nat
  deferred : List Entry
  param : Hashtb_param
  nextId : Nat
deriving DecidableEq

/-- Modelled from the spec: the chain stored in bucket `i` (an out-of-range
index reads as the empty chain). -/
def chainAt (tb : Hashtb) (i : Nat) : List Entry := (tb.bucket[i]?).getD []

/-- Modelled from the spec: the live entries of the table, bucket by bucket. -/
def live (tb : Hashtb) : List Entry := tb.bucket.flatten

/-- Modelled from the spec: the bucket index a digest selects. -/
def bucketOf (tb : Hashtb) (h : Nat) : Nat := h % tb.bucket.length

/-- Modelled from the spec: scan a chain for the first entry whose
`(keysize, key bytes)` match the sought key exactly. -/
def findInChain (k : Key) (c : List Entry) : Option Entry :=
  c.find? (fun e => e.key == k)

/-- Modelled from the spec: locate the live entry for a key, by scanning the
chain of the bucket its digest selects. -/
def findLive (hashFn : Key → Nat) (tb : Hashtb) (k : Key) : Option Entry :=
  findInChain k (chainAt tb (bucketOf tb (hashFn k)))

/-- Modelled from the spec: the initial bucket-array size chosen by
`hashtb_create` (any positive implementation-chosen value; the spec leaves the
progression open). -/
def initialBuckets : Nat := 13

/-- Modelled from the spec: `hashtb_create` allocates an empty table with an
initial bucket array; a NULL `param` means the defaults, otherwise a copy of
`*param` is saved. -/
def hashtb_create (item_size : Nat) (param : Option Hashtb_param) : Hashtb :=
  { bucket := List.replicate initialBuckets []
    item_size := item_size
    n := 0
    refcount := 0
    deferred := []
    param := param.getD defaultParam
    nextId := 0 }

/-- Modelled from the spec: `hashtb_n` returns the current number of
elements. -/
def hashtb_n (tb : Hashtb) : Nat := tb.n

/-- Modelled from the spec: `hashtb_lookup` computes the digest of the key,
scans the corresponding chain for an exact `(keysize, key bytes)` match and
returns the matched user-data region, or NULL (`none`).  It is a pure read. -/
def hashtb_lookup (hashFn : Key → Nat) (tb : Hashtb) (k : Key) : Option (List Nat) :=
  (findLive hashFn tb k).map Entry.data

/-- Modelled from the spec: `hashtb_get_param` returns the `finalize_data`
saved at creation and copies the saved parameters into `*param`. -/
def hashtb_get_param (tb : Hashtb) : Nat × Hashtb_param :=
  (tb.param.finalize_data, tb.param)

/-- Modelled from the spec: `hashtb_seek` finds or adds an item.  The result
is `(r, tb2, pos)`: the return code, the table afterwards, and the entry the
enumerator is left positioned on.  A NULL key yields `-1`; an existing match
yields `0` with the table untouched; otherwise a node holding the key bytes,
the extension bytes and a zeroed data region is linked into its bucket and the
result is `1`, unless allocation fails (`allocOk = false`), which yields `-1`
with no half-built entry left linked. -/
def hashtb_seek (hashFn : Key → Nat) (allocOk : Bool) (tb : Hashtb)
    (key : Option Key) (ext : List Nat) : Int × Hashtb × Option Entry :=
  match key with
  | none => (-1, tb, none)
  | some k =>
    match findLive hashFn tb k with
    | some e => (0, tb, some e)
    | none =>
      if allocOk then
        let e : Entry :=
          { eid := tb.nextId, hash := hashFn k, key := k, ext := ext
            data := List.replicate tb.item_size 0 }
        let i := bucketOf tb (hashFn k)
        (1,
          { tb with
              bucket := tb.bucket.set i (e :: chainAt tb i)
              n := tb.n + 1
              nextId := tb.nextId + 1 },
          some e)
      else (-1, tb, none)

/-- Modelled from the spec: unlink the first entry of a chain whose key
matches; returns the chain without it and the unlinked entry. -/
def unlink (k : Key) : List Entry → List Entry × Option Entry
  | [] => ([], none)
  | e :: rest =>
    if e.key = k then (rest, some e)
    else
      let p := unlink k rest
      (e :: p.1, p.2)

/-- Modelled from the spec: `hashtb_delete` on the entry holding key `k`.  The
result is `(tb2, unl, freed)`: the table afterwards, the entry that was
unlinked (if any), and the entries physically freed by this call.  The entry
is unlinked from its chain and the live count drops immediately; if the
deleting enumerator is the only open one (`refcount = 1`) the entry is
finalized and freed at once, otherwise it is appended to the deferred-cleanup
list, to be freed when the open-enumerator count returns to zero. -/
def hashtb_delete (hashFn : Key → Nat) (tb : Hashtb) (k : Key) :
    Hashtb × Option Entry × List Entry :=
  let i := bucketOf tb (hashFn k)
  let p := unlink k (chainAt tb i)
  match p.2 with
  | none => (tb, none, [])
  | some e =>
    let tb1 := { tb with bucket := tb.bucket.set i p.1, n := tb.n - 1 }
    if tb.refcount = 1 then (tb1, some e, [e])
    else ({ tb1 with deferred := tb1.deferred ++ [e] }, some e, [])

/-- Modelled from the spec: `hashtb_end` closes one enumerator.  The result is
`(tb2, freed)`.  The open-enumerator count drops by one; at the transition
from one to zero the deferred-cleanup list is drained completely, each entry
finalized and freed in the order it was unlinked. -/
def hashtb_end (tb : Hashtb) : Hashtb × List Entry :=
  if tb.refcount = 1 then
    ({ tb with refcount := 0, deferred := [] }, tb.deferred)
  else ({ tb with refcount := tb.refcount - 1 }, [])

/-- Modelled from the spec: rebuild a bucket array of `nb` chains, relinking
every entry by its cached digest modulo `nb`. -/
def relink (es : List Entry) (nb : Nat) : List (List Entry) :=
  (List.range nb).map (fun i => es.filter (fun e => e.hash % nb == i))

/-- Modelled from the spec: `hashtb_rehash` does nothing whenever any
enumerator is open (silently, not an error); otherwise it rebuilds the bucket
array, relinking every live entry by its cached digest modulo the new bucket
count. -/
def hashtb_rehash (tb : Hashtb) (nb : Nat) : Hashtb :=
  if tb.refcount ≠ 0 then tb
  else { tb with bucket := relink (live tb) (max 1 nb) }

/-! ### Operation language and reachable states

A system state pairs the table with two histories: `unlinked`, the entries
unlinked by `hashtb_delete` in order, and `reclaimed`, the entries physically
freed so far in free order.  Per the spec, reclamation of an entry is one
atomic action: the finalize callback (when configured) runs immediately
before the free, so one reclamation = one finalize (if any) + one free. -/

/-- Modelled from the spec: one client call against the table.  `close` is
`hashtb_end`; the payloads carry the call arguments, and `seek` additionally
carries the allocation oracle for this call. -/
inductive Op where
  | start : Op
  | close : Op
  | seek (allocOk : Bool) (key : Option Key) (ext : List Nat) : Op
  | delete (k : Key) : Op
  | lookup (k : Key) : Op
  | getParam : Op
  | rehash (nb : Nat) : Op
deriving DecidableEq

/-- Modelled from the spec: the table together with the unlink and free
histories. -/
structure SysState where
  tb : Hashtb
  unlinked : List Entry
  reclaimed : List Entry
deriving DecidableEq

/-- Modelled from the spec: the effect of one call on the system state.
Enumerator-borne calls (`seek`, `delete`, `close`) require an open enumerator
(refcount positive); using one without is a usage fault and is modelled as a
no-op.  `lookup` and `getParam` are pure reads and leave the state
untouched. -/
def step (hashFn : Key → Nat) (op : Op) (s : SysState) : SysState :=
  match op with
  | .start => { s with tb := { s.tb with refcount := s.tb.refcount + 1 } }
  | .close =>
    if s.tb.refcount = 0 then s
    else
      let p := hashtb_end s.tb
      { s with tb := p.1, reclaimed := s.reclaimed ++ p.2 }
  | .seek allocOk key ext =>
    if s.tb.refcount = 0 then s
    else { s with tb := (hashtb_seek hashFn allocOk s.tb key ext).2.1 }
  | .delete k =>
    if s.tb.refcount = 0 then s
    else
      let p := hashtb_delete hashFn s.tb k
      { s with
          tb := p.1
          unlinked := s.unlinked ++ p.2.1.toList
          reclaimed := s.reclaimed ++ p.2.2 }
  | .lookup _ => s
  | .getParam => s
  | .rehash nb => { s with tb := hashtb_rehash s.tb nb }

/-- Modelled from the spec: the state right after `hashtb_create`. -/
def init (item_size : Nat) (param : Option Hashtb_param) : SysState :=
  { tb := hashtb_create item_size param, unlinked := [], reclaimed := [] }

/-- Modelled from the spec: run a sequence of calls from a given state. -/
def runFrom (hashFn : Key → Nat) (ops : List Op) (s : SysState) : SysState :=
  ops.foldl (fun s op => step hashFn op s) s

/-- Modelled from the spec: run a sequence of calls against a fresh table. -/
def run (hashFn : Key → Nat) (item_size : Nat) (param : Option Hashtb_param)
    (ops : List Op) : SysState :=
  runFrom hashFn ops (init item_size param)

/-- Modelled from the spec: a concrete digest used to instantiate theorems
(the spec leaves the hash function open; any digest will do). -/
def demoHash (k : Key) : Nat := k.foldl (fun h b => h * 31 + b + 1) 5

/-! ### Enumeration sessions

The enumerator of `hashtb.h` walks the table bucket by bucket, within one
bucket along the chain links; its private state is the current bucket index
and the current node.  The session model below captures one enumerator on a
table: `rest` is the chain suffix headed by the current entry (empty when the
enumeration is exhausted), and `past` records, in order, the entries the
cursor has been positioned on and advanced past.  The model is used for the
delete-while-iterating claims. -/

/-- Modelled from the spec: the chain in bucket `i` of a raw bucket array. -/
def chainAtB (buckets : List (List Entry)) (i : Nat) : List Entry :=
  (buckets[i]?).getD []

/-- Modelled from the spec: starting from absolute bucket index `i`, with
`bs` the buckets from `i` on, find the first nonempty chain; the result is
the absolute index of that bucket and the chain itself, or an exhausted
cursor past the last bucket. -/
def nextPos : List (List Entry) → Nat → Nat × List Entry
  | [], i => (i, [])
  | [] :: bs, i => nextPos bs (i + 1)
  | (e :: c) :: _, i => (i, e :: c)

/-- Modelled from the spec: advance a cursor that is leaving the entries of
`tl` behind in bucket `i`: stay on `tl` if entries remain, otherwise move to
the first nonempty later bucket. -/
def advance (buckets : List (List Entry)) (i : Nat) : List Entry → Nat × List Entry
  | [] => nextPos (buckets.drop (i + 1)) (i + 1)
  | e :: tl => (i, e :: tl)

/-- Modelled from the spec: one open enumerator together with its table and
the visit history of the session. -/
structure Session where
  buckets : List (List Entry)
  bidx : Nat
  rest : List Entry
  past : List Entry
deriving DecidableEq

/-- Modelled from the spec: `hashtb_start` positions the cursor at the first
entry of the first nonempty bucket (or exhausted when the table is empty). -/
def sessionStart (buckets : List (List Entry)) : Session :=
  let p := nextPos buckets 0
  { buckets := buckets, bidx := p.1, rest := p.2, past := [] }

/-- Modelled from the spec: `hashtb_next` advances past the current entry to
the next entry of the chain, or the first entry of the next nonempty bucket,
or exhaustion; exhausted cursors stay exhausted. -/
def hashtb_next (S : Session) : Session :=
  match S.rest with
  | [] => S
  | e :: tl =>
    let p := advance S.buckets S.bidx tl
    { S with bidx := p.1, rest := p.2, past := S.past ++ [e] }

/-- Modelled from the spec: `hashtb_delete` on the current entry of an open
session: the entry is unlinked from its chain and the cursor auto-advances
with the same semantics as `hashtb_next`. -/
def deleteCur (S : Session) : Session :=
  match S.rest with
  | [] => S
  | e :: tl =>
    let chain := chainAtB S.buckets S.bidx
    let pre := chain.take (chain.length - S.rest.length)
    let buckets2 := S.buckets.set S.bidx (pre ++ tl)
    let p := advance buckets2 S.bidx tl
    { buckets := buckets2, bidx := p.1, rest := p.2, past := S.past ++ [e] }

/-- Modelled from the spec: the entries the session has not yet reached,
starting with the current one, in visit order. -/
def toVisit (S : Session) : List Entry :=
  S.rest ++ (S.buckets.drop (S.bidx + 1)).flatten

/-- Modelled from the spec: one session action — advance, or delete the
current entry. -/
inductive SOp where
  | next : SOp
  | delCur : SOp
deriving DecidableEq

/-- Modelled from the spec: apply one session action. -/
def sstep (op : SOp) (S : Session) : Session :=
  match op with
  | .next => hashtb_next S
  | .delCur => deleteCur S

/-- Modelled from the spec: run a sequence of session actions. -/
def srun (ops : List SOp) (S : Session) : Session :=
  ops.foldl (fun S op => sstep op S) S

/-! ### Scope stack

`hashtb.h` declares `struct Stack` (a fixed array of `MAX_STACK_SIZE` tables
with a depth index) and `stack_init` / `push` / `pop`; the implementations
and the constant `MAX_STACK_SIZE` live in files not in the sources, so both
are modelled from the spec, the bound as an explicit field. -/

/-- Modelled from struct `Stack` of `hashtb.h` (implementation and
`common.h` with `MAX_STACK_SIZE` are not in the sources): a bounded stack of
symbol tables; `tables` holds the tables at depths `0 .. top - 1`. -/
structure Stack where
  maxSize : Nat
  top : Nat
  item_size : Nat
  tables : List Hashtb
deriving DecidableEq

/-- Modelled from the spec: `stack_init` prepares storage for up to the
bound many tables sharing one item size, with initial depth 0. -/
def stack_init (maxSize item_size : Nat) : Stack :=
  { maxSize := maxSize, top := 0, item_size := item_size, tables := [] }

/-- Modelled from the spec: `push` fails (`none`) if the depth is already at
the bound, and otherwise creates a new empty table at the next depth,
increments the depth and returns the new index. -/
def push (st : Stack) : Option (Stack × Nat) :=
  if st.top = st.maxSize then none
  else
    some
      ({ st with
          top := st.top + 1
          tables := st.tables ++ [hashtb_create st.item_size none] },
        st.top)

/-- Modelled from the spec: `pop` is a fatal precondition violation (`none`)
when the depth is 0, and otherwise destroys exactly the top table and
decrements the depth. -/
def pop (st : Stack) : Option Stack :=
  if st.top = 0 then none
  else some { st with top := st.top - 1, tables := st.tables.dropLast }

/-- Modelled from the spec: run a sequence of pushes (`true`) and pops
(`false`); a failing call leaves the stack unchanged. -/
def stackRun (ops : List Bool) (st : Stack) : Stack :=
  ops.foldl
    (fun st b =>
      if b then ((push st).map Prod.fst).getD st
      else (pop st).getD st)
    st

/-! ### Enumerator validation tag

These two definitions embed lines 34 and 35 of `hashtb.h`:

  CHECKHTE(ht, hte)  is  ((uintptr_t)((hte)->priv[1]) == ~(uintptr_t)(ht))
  MARKHTE(ht, hte)   is  ((hte)->priv[1] = (void*)~(uintptr_t)(ht))

Addresses are naturals below `2 ^ w` for the pointer width `w`, and the
bitwise complement of an address `a` is `2 ^ w - 1 - a`. -/

/-- Embeds `~(uintptr_t)(ht)`: the `w`-bit bitwise complement of an
address. -/
def complAddr (w a : Nat) : Nat := (2 ^ w - 1) - a

/-- Embeds `MARKHTE` of `hashtb.h`: the value the line stores into
`hte->priv[1]`, namely the complement of the owning table address. -/
def MARKHTE (w ht : Nat) : Nat := complAddr w ht

/-- Embeds `CHECKHTE` of `hashtb.h`: compare the tag saved in `hte->priv[1]`
with the complement of the address of the table the enumerator is used
against. -/
def CHECKHTE (w ht priv1 : Nat) : Bool := priv1 == complAddr w ht

/-! ### Basic list helpers -/

theorem getD_getElem?_set_self {α : Type} (l : List α) {i : Nat} (h : i < l.length)
    (a d : α) : ((l.set i a)[i]?).getD d = a := by
  rw [List.getElem?_set_self (by simpa using h)]
  rfl

theorem getD_getElem?_set_ne {α : Type} (l : List α) {i j : Nat} (h : i ≠ j)
    (a d : α) : ((l.set i a)[j]?).getD d = (l[j]?).getD d := by
  rw [List.getElem?_set_ne h]

theorem flatten_set {α : Type} (l : List (List α)) {i : Nat} (h : i < l.length)
    (c : List α) :
    (l.set i c).flatten = (l.take i).flatten ++ c ++ (l.drop (i + 1)).flatten := by
  rw [List.set_eq_take_cons_drop c h]
  simp

theorem flatten_split {α : Type} (l : List (List α)) {i : Nat} (h : i < l.length) :
    l.flatten = (l.take i).flatten ++ l[i] ++ (l.drop (i + 1)).flatten := by
  conv_lhs => rw [← List.take_append_drop i l, List.drop_eq_getElem_cons h]
  rw [List.flatten_append, List.flatten_cons, ← List.append_assoc]

theorem drop_succ_set {α : Type} (l : List α) (i : Nat) (a : α) :
    (l.set i a).drop (i + 1) = l.drop (i + 1) := by
  induction l generalizing i with
  | nil => rfl
  | cons x xs ih =>
    cases i with
    | zero => rfl
    | succ j => simpa using ih j

theorem sum_range_single (j c : Nat) : ∀ nb : Nat, j < nb →
    (((List.range nb).map (fun i => if j = i then c else 0)).sum) = c := by
  intro nb
  induction nb with
  | zero => omega
  | succ m ih =>
    intro hj
    rw [List.range_succ]
    by_cases hjm : j < m
    · have hne : j ≠ m := by omega
      simp [ih hjm, hne]
    · have hje : j = m := by omega
      subst hje
      have h0 : (((List.range j).map (fun i => if j = i then c else 0)).sum) = 0 := by
        apply List.sum_eq_zero
        intro x hx
        obtain ⟨i, hi, rfl⟩ := List.mem_map.mp hx
        have : i < j := List.mem_range.mp hi
        simp [Nat.ne_of_gt this]
      simp [h0]

/-! ### Chain and flatten membership -/

theorem mem_live_iff {tb : Hashtb} {e : Entry} :
    e ∈ live tb ↔ ∃ i, e ∈ chainAt tb i := by
  constructor
  · intro h
    obtain ⟨c, hc, hec⟩ := List.mem_flatten.mp h
    obtain ⟨i, hi, rfl⟩ := List.mem_iff_getElem.mp hc
    exact ⟨i, by simpa [chainAt, List.getElem?_eq_getElem hi] using hec⟩
  · rintro ⟨i, hi⟩
    by_cases hlen : i < tb.bucket.length
    · refine List.mem_flatten.mpr ⟨tb.bucket[i], List.getElem_mem hlen, ?_⟩
      simpa [chainAt, List.getElem?_eq_getElem hlen] using hi
    · rw [chainAt, List.getElem?_eq_none (by omega)] at hi
      simp at hi

theorem chain_subset_live {tb : Hashtb} {i : Nat} {e : Entry}
    (h : e ∈ chainAt tb i) : e ∈ live tb :=
  mem_live_iff.mpr ⟨i, h⟩

/-! ### Find and unlink -/

theorem findInChain_some {k : Key} {c : List Entry} {e : Entry}
    (h : findInChain k c = some e) : e ∈ c ∧ e.key = k := by
  refine ⟨List.mem_of_find?_eq_some h, ?_⟩
  have := List.find?_some h
  simpa using this

theorem findInChain_none {k : Key} {c : List Entry} :
    findInChain k c = none ↔ ∀ e ∈ c, e.key ≠ k := by
  rw [findInChain, List.find?_eq_none]
  constructor
  · intro h e he
    have := h e he
    simpa using this
  · intro h e he
    simpa using h e he

theorem findInChain_isSome {k : Key} {c : List Entry} {e : Entry}
    (he : e ∈ c) (hk : e.key = k) : (findInChain k c).isSome := by
  rw [findInChain, List.find?_isSome]
  exact ⟨e, he, by simp [hk]⟩

theorem unlink_eq_find (k : Key) (c : List Entry) :
    (unlink k c).2 = findInChain k c := by
  induction c with
  | nil => rfl
  | cons e rest ih =>
    by_cases h : e.key = k
    · simp [unlink, findInChain, List.find?, h]
    · simp only [unlink, if_neg h]
      rw [findInChain, List.find?]
      have : (e.key == k) = false := by simpa using h
      rw [this]
      exact ih

theorem unlink_some {k : Key} {c : List Entry} {e : Entry}
    (h : (unlink k c).2 = some e) :
    ∃ pre post, c = pre ++ e :: post ∧ (unlink k c).1 = pre ++ post ∧ e.key = k := by
  induction c with
  | nil => simp [unlink] at h
  | cons x rest ih =>
    by_cases hx : x.key = k
    · simp only [unlink, if_pos hx] at h ⊢
      cases h
      exact ⟨[], rest, rfl, rfl, hx⟩
    · simp only [unlink, if_neg hx] at h ⊢
      obtain ⟨pre, post, hc, hu, hk⟩ := ih h
      exact ⟨x :: pre, post, by rw [hc]; rfl, by simp [hu], hk⟩

theorem unlink_none {k : Key} {c : List Entry}
    (h : (unlink k c).2 = none) : (unlink k c).1 = c := by
  induction c with
  | nil => rfl
  | cons x rest ih =>
    by_cases hx : x.key = k
    · simp [unlink, if_pos hx] at h
    · simp only [unlink, if_neg hx] at h ⊢
      rw [ih h]

/-! ### The reachable-state invariant -/

/-- Modelled from the spec: every entry the table has ever allocated and not
yet returned to the system lives in exactly one of three places — one of the
bucket chains, the deferred-cleanup list, or (already freed) the reclaim
history. -/
def allEntries (s : SysState) : List Entry :=
  live s.tb ++ s.tb.deferred ++ s.reclaimed

/-- The invariant of reachable system states: the bucket array is nonempty;
every chained entry sits in the bucket its cached digest selects and the
digest is that of its key; live keys are pairwise distinct; the stored count
is the number of live entries; node identities are pairwise distinct and
below the allocation counter; a nonempty deferred list implies an open
enumerator; the unlink history is, up to order, the reclaim history plus the
deferred list; the deferred list is a subsequence of the unlink history; and
the saved parameters are those given at creation. -/
structure Inv (hashFn : Key → Nat) (p0 : Hashtb_param) (s : SysState) : Prop where
  nbPos : 0 < s.tb.bucket.length
  placed : ∀ i, ∀ e ∈ chainAt s.tb i,
    e.hash = hashFn e.key ∧ e.hash % s.tb.bucket.length = i
  keysNodup : ((live s.tb).map Entry.key).Nodup
  countOk : s.tb.n = (live s.tb).length
  eidsNodup : ((allEntries s).map Entry.eid).Nodup
  eidsFresh : ∀ e ∈ allEntries s, e.eid < s.tb.nextId
  defOpen : s.tb.deferred = [] ∨ 1 ≤ s.tb.refcount
  unlinkedPerm : List.Perm s.unlinked (s.reclaimed ++ s.tb.deferred)
  deferredSub : List.Sublist s.tb.deferred s.unlinked
  paramEq : s.tb.param = p0

theorem findLive_some_iff {hashFn : Key → Nat} {p0 : Hashtb_param} {s : SysState}
    (hI : Inv hashFn p0 s) {k : Key} {e : Entry} :
    findLive hashFn s.tb k = some e ↔ e ∈ live s.tb ∧ e.key = k := by
  constructor
  · intro h
    obtain ⟨hmem, hkey⟩ := findInChain_some h
    exact ⟨chain_subset_live hmem, hkey⟩
  · rintro ⟨hmem, hkey⟩
    obtain ⟨i, hi⟩ := mem_live_iff.mp hmem
    obtain ⟨hhash, hmod⟩ := hI.placed i e hi
    have hib : i = bucketOf s.tb (hashFn k) := by
      rw [bucketOf, ← hkey, ← hhash, hmod]
    subst hib
    have hsome : (findInChain k (chainAt s.tb (bucketOf s.tb (hashFn k)))).isSome :=
      findInChain_isSome hi hkey
    rw [findLive]
    obtain ⟨e1, he1⟩ := Option.isSome_iff_exists.mp hsome
    obtain ⟨he1mem, he1key⟩ := findInChain_some he1
    have : e1 = e := by
      apply List.inj_on_of_nodup_map hI.keysNodup (chain_subset_live he1mem)
        (chain_subset_live hi)
      rw [he1key, hkey]
    rw [he1, this]

theorem findLive_none_iff {hashFn : Key → Nat} {p0 : Hashtb_param} {s : SysState}
    (hI : Inv hashFn p0 s) {k : Key} :
    findLive hashFn s.tb k = none ↔ ∀ e ∈ live s.tb, e.key ≠ k := by
  constructor
  · intro h e he hk
    have : findLive hashFn s.tb k = some e := (findLive_some_iff hI).mpr ⟨he, hk⟩
    rw [h] at this
    cases this
  · intro h
    rw [findLive, findInChain_none]
    intro e he
    exact h e (chain_subset_live he)

/-! ### Permutation helpers for bucket surgery -/

theorem perm_append3 {α : Type} {l1 l2 : List α} {e : α} (h : List.Perm l1 (e :: l2))
    (d r : List α) : List.Perm (l1 ++ d ++ r) (e :: (l2 ++ d ++ r)) := by
  have h1 : List.Perm (l1 ++ d ++ r) ((e :: l2) ++ d ++ r) :=
    (h.append_right d).append_right r
  simpa using h1

theorem middle_cons_perm {α : Type} (A C D : List α) (e : α) :
    List.Perm (A ++ (e :: C) ++ D) (e :: (A ++ C ++ D)) := by
  have h1 : A ++ (e :: C) ++ D = A ++ e :: (C ++ D) := by
    simp [List.append_assoc]
  have h2 : A ++ C ++ D = A ++ (C ++ D) := List.append_assoc A C D
  rw [h1, h2]
  exact List.perm_middle

theorem middle_remove_perm {α : Type} (A pre post D : List α) (e : α) :
    List.Perm (A ++ (pre ++ e :: post) ++ D) (e :: (A ++ (pre ++ post) ++ D)) := by
  have h1 : A ++ (pre ++ e :: post) ++ D = (A ++ pre) ++ e :: (post ++ D) := by
    simp [List.append_assoc]
  have h2 : A ++ (pre ++ post) ++ D = (A ++ pre) ++ (post ++ D) := by
    simp [List.append_assoc]
  rw [h1, h2]
  exact List.perm_middle

theorem live_insert_perm {tb : Hashtb} {i : Nat} (h : i < tb.bucket.length) (e : Entry) :
    List.Perm ((tb.bucket.set i (e :: chainAt tb i)).flatten) (e :: live tb) := by
  have hget : chainAt tb i = tb.bucket[i] := by
    rw [chainAt, List.getElem?_eq_getElem h]
    rfl
  rw [hget, flatten_set tb.bucket h, live, flatten_split tb.bucket h]
  exact middle_cons_perm _ _ _ e

theorem live_remove_perm {tb : Hashtb} {i : Nat} (h : i < tb.bucket.length)
    {pre post : List Entry} {e : Entry} (hchain : chainAt tb i = pre ++ e :: post) :
    List.Perm (live tb) (e :: (tb.bucket.set i (pre ++ post)).flatten) := by
  have hget : tb.bucket[i] = pre ++ e :: post := by
    rw [← hchain, chainAt, List.getElem?_eq_getElem h]
    rfl
  rw [live, flatten_split tb.bucket h, hget, flatten_set tb.bucket h]
  exact middle_remove_perm _ _ _ _ e

/-! ### Relink -/

theorem relink_length (es : List Entry) (nb : Nat) : (relink es nb).length = nb := by
  rw [relink, List.length_map, List.length_range]

theorem relink_chain (es : List Entry) {nb i : Nat} (h : i < nb) :
    ((relink es nb)[i]?).getD [] = es.filter (fun e => e.hash % nb == i) := by
  rw [relink, List.getElem?_map, List.getElem?_range h]
  rfl

theorem relink_perm (es : List Entry) {nb : Nat} (h : 0 < nb) :
    List.Perm (relink es nb).flatten es := by
  apply List.perm_iff_count.mpr
  intro a
  rw [List.count_flatten, relink, List.map_map]
  have hcong :
      (List.range nb).map ((List.count a) ∘ (fun i => es.filter (fun e => e.hash % nb == i))) =
      (List.range nb).map (fun i => if a.hash % nb = i then List.count a es else 0) := by
    apply List.map_congr_left
    intro i _
    by_cases hp : a.hash % nb = i
    · simp only [Function.comp]
      rw [if_pos hp, List.count_filter (by simp [hp])]
    · simp only [Function.comp]
      rw [if_neg hp, List.count_eq_zero]
      intro hmem
      exact hp (by simpa using (List.mem_filter.mp hmem).2)
  rw [hcong, sum_range_single _ _ nb (Nat.mod_lt _ h)]

/-! ### Reduction equations for the operations -/

theorem step_start_eq (hashFn : Key → Nat) (s : SysState) :
    step hashFn Op.start s =
      { s with tb := { s.tb with refcount := s.tb.refcount + 1 } } := rfl

theorem step_close_eq (hashFn : Key → Nat) (s : SysState) :
    step hashFn Op.close s =
      if s.tb.refcount = 0 then s
      else { s with tb := (hashtb_end s.tb).1,
                    reclaimed := s.reclaimed ++ (hashtb_end s.tb).2 } := rfl

theorem step_seek_eq (hashFn : Key → Nat) (a : Bool) (key : Option Key)
    (ext : List Nat) (s : SysState) :
    step hashFn (Op.seek a key ext) s =
      if s.tb.refcount = 0 then s
      else { s with tb := (hashtb_seek hashFn a s.tb key ext).2.1 } := rfl

theorem step_delete_eq (hashFn : Key → Nat) (k : Key) (s : SysState) :
    step hashFn (Op.delete k) s =
      if s.tb.refcount = 0 then s
      else { s with
               tb := (hashtb_delete hashFn s.tb k).1
               unlinked := s.unlinked ++ ((hashtb_delete hashFn s.tb k).2.1).toList
               reclaimed := s.reclaimed ++ (hashtb_delete hashFn s.tb k).2.2 } := rfl

theorem step_lookup_eq (hashFn : Key → Nat) (k : Key) (s : SysState) :
    step hashFn (Op.lookup k) s = s := rfl

theorem step_getParam_eq (hashFn : Key → Nat) (s : SysState) :
    step hashFn Op.getParam s = s := rfl

theorem step_rehash_eq (hashFn : Key → Nat) (nb : Nat) (s : SysState) :
    step hashFn (Op.rehash nb) s = { s with tb := hashtb_rehash s.tb nb } := rfl

theorem hashtb_end_drain {tb : Hashtb} (h : tb.refcount = 1) :
    hashtb_end tb = ({ tb with refcount := 0, deferred := [] }, tb.deferred) := by
  rw [hashtb_end, if_pos h]

theorem hashtb_end_dec {tb : Hashtb} (h : ¬tb.refcount = 1) :
    hashtb_end tb = ({ tb with refcount := tb.refcount - 1 }, []) := by
  rw [hashtb_end, if_neg h]

theorem hashtb_seek_null (hashFn : Key → Nat) (a : Bool) (tb : Hashtb) (ext : List Nat) :
    hashtb_seek hashFn a tb none ext = (-1, tb, none) := rfl

theorem hashtb_seek_found {hashFn : Key → Nat} {a : Bool} {tb : Hashtb} {k : Key}
    {ext : List Nat} {e : Entry} (h : findLive hashFn tb k = some e) :
    hashtb_seek hashFn a tb (some k) ext = (0, tb, some e) := by
  simp only [hashtb_seek, h]

theorem hashtb_seek_nomem {hashFn : Key → Nat} {tb : Hashtb} {k : Key}
    {ext : List Nat} (h : findLive hashFn tb k = none) :
    hashtb_seek hashFn false tb (some k) ext = (-1, tb, none) := by
  simp only [hashtb_seek, h, Bool.false_eq_true, if_false]

/-- The node `hashtb_seek` allocates for a missing key. -/
def newEntry (hashFn : Key → Nat) (tb : Hashtb) (k : Key) (ext : List Nat) : Entry :=
  { eid := tb.nextId, hash := hashFn k, key := k, ext := ext
    data := List.replicate tb.item_size 0 }

/-- The table after `hashtb_seek` links a new node for a missing key. -/
def insertTb (hashFn : Key → Nat) (tb : Hashtb) (k : Key) (ext : List Nat) : Hashtb :=
  { tb with
      bucket := tb.bucket.set (bucketOf tb (hashFn k))
        (newEntry hashFn tb k ext :: chainAt tb (bucketOf tb (hashFn k)))
      n := tb.n + 1
      nextId := tb.nextId + 1 }

theorem hashtb_seek_new {hashFn : Key → Nat} {tb : Hashtb} {k : Key}
    {ext : List Nat} (h : findLive hashFn tb k = none) :
    hashtb_seek hashFn true tb (some k) ext =
      (1, insertTb hashFn tb k ext, some (newEntry hashFn tb k ext)) := by
  simp only [hashtb_seek, h, if_pos, insertTb, newEntry]

/-- The table after `hashtb_delete` unlinks the entry for key `k` (count
already decremented, entry not yet queued or freed). -/
def removeTb (hashFn : Key → Nat) (tb : Hashtb) (k : Key) : Hashtb :=
  { tb with
      bucket := tb.bucket.set (bucketOf tb (hashFn k))
        (unlink k (chainAt tb (bucketOf tb (hashFn k)))).1
      n := tb.n - 1 }

theorem hashtb_delete_miss {hashFn : Key → Nat} {tb : Hashtb} {k : Key}
    (h : (unlink k (chainAt tb (bucketOf tb (hashFn k)))).2 = none) :
    hashtb_delete hashFn tb k = (tb, none, []) := by
  simp only [hashtb_delete, h]

theorem hashtb_delete_last {hashFn : Key → Nat} {tb : Hashtb} {k : Key} {e : Entry}
    (h : (unlink k (chainAt tb (bucketOf tb (hashFn k)))).2 = some e)
    (h1 : tb.refcount = 1) :
    hashtb_delete hashFn tb k = (removeTb hashFn tb k, some e, [e]) := by
  simp only [hashtb_delete, h, if_pos h1, removeTb]

theorem hashtb_delete_defer {hashFn : Key → Nat} {tb : Hashtb} {k : Key} {e : Entry}
    (h : (unlink k (chainAt tb (bucketOf tb (hashFn k)))).2 = some e)
    (h1 : ¬tb.refcount = 1) :
    hashtb_delete hashFn tb k =
      ({ removeTb hashFn tb k with deferred := tb.deferred ++ [e] }, some e, []) := by
  simp only [hashtb_delete, h, if_neg h1, removeTb]

/-! ### Invariant preservation -/

theorem inv_start {hashFn : Key → Nat} {p0 : Hashtb_param} {s : SysState}
    (hI : Inv hashFn p0 s) : Inv hashFn p0 (step hashFn Op.start s) := by
  rw [step_start_eq]
  exact ⟨hI.nbPos, hI.placed, hI.keysNodup, hI.countOk, hI.eidsNodup, hI.eidsFresh,
    Or.inr (show 1 ≤ s.tb.refcount + 1 by omega), hI.unlinkedPerm, hI.deferredSub,
    hI.paramEq⟩

theorem inv_close {hashFn : Key → Nat} {p0 : Hashtb_param} {s : SysState}
    (hI : Inv hashFn p0 s) : Inv hashFn p0 (step hashFn Op.close s) := by
  rw [step_close_eq]
  by_cases h0 : s.tb.refcount = 0
  · rw [if_pos h0]
    exact hI
  rw [if_neg h0]
  by_cases h1 : s.tb.refcount = 1
  · rw [hashtb_end_drain h1]
    have hAE : List.Perm (live s.tb ++ ([] : List Entry) ++ (s.reclaimed ++ s.tb.deferred))
        (allEntries s) := by
      simp only [allEntries, List.append_nil, List.append_assoc]
      exact List.Perm.append_left (live s.tb) List.perm_append_comm
    refine ⟨hI.nbPos, hI.placed, hI.keysNodup, hI.countOk, ?_, ?_, Or.inl rfl, ?_,
      List.nil_sublist _, hI.paramEq⟩
    · exact ((hAE.map Entry.eid).symm.nodup hI.eidsNodup)
    · intro e he
      exact hI.eidsFresh e (hAE.mem_iff.mp he)
    · show List.Perm s.unlinked ((s.reclaimed ++ s.tb.deferred) ++ [])
      simpa using hI.unlinkedPerm
  · rw [hashtb_end_dec h1]
    refine ⟨hI.nbPos, hI.placed, hI.keysNodup, hI.countOk, ?_, ?_,
      Or.inr (show 1 ≤ s.tb.refcount - 1 by omega), ?_, hI.deferredSub, hI.paramEq⟩
    · show ((live s.tb ++ s.tb.deferred ++ (s.reclaimed ++ [])).map Entry.eid).Nodup
      simpa [allEntries] using hI.eidsNodup
    · intro e he
      refine hI.eidsFresh e ?_
      simpa [allEntries] using he
    · show List.Perm s.unlinked ((s.reclaimed ++ []) ++ s.tb.deferred)
      simpa using hI.unlinkedPerm

theorem inv_seek {hashFn : Key → Nat} {p0 : Hashtb_param} {s : SysState}
    (hI : Inv hashFn p0 s) (a : Bool) (key : Option Key) (ext : List Nat) :
    Inv hashFn p0 (step hashFn (Op.seek a key ext) s) := by
  rw [step_seek_eq]
  by_cases h0 : s.tb.refcount = 0
  · rw [if_pos h0]
    exact hI
  rw [if_neg h0]
  match key with
  | none =>
    rw [hashtb_seek_null]
    exact hI
  | some k =>
    cases hfl : findLive hashFn s.tb k with
    | some e =>
      rw [hashtb_seek_found hfl]
      exact hI
    | none =>
      cases a with
      | false =>
        rw [hashtb_seek_nomem hfl]
        exact hI
      | true =>
        rw [hashtb_seek_new hfl]
        have hi : bucketOf s.tb (hashFn k) < s.tb.bucket.length :=
          Nat.mod_lt _ hI.nbPos
        have hP : List.Perm (live (insertTb hashFn s.tb k ext))
            (newEntry hashFn s.tb k ext :: live s.tb) :=
          live_insert_perm hi (newEntry hashFn s.tb k ext)
        have hknot : ∀ e ∈ live s.tb, e.key ≠ k := (findLive_none_iff hI).mp hfl
        have hAE : List.Perm (allEntries { s with tb := insertTb hashFn s.tb k ext })
            (newEntry hashFn s.tb k ext :: allEntries s) :=
          perm_append3 hP s.tb.deferred s.reclaimed
        refine ⟨?_, ?_, ?_, ?_, ?_, ?_, ?_, hI.unlinkedPerm, hI.deferredSub, hI.paramEq⟩
        · simpa [insertTb] using hI.nbPos
        · intro j e he
          have hlen : (insertTb hashFn s.tb k ext).bucket.length = s.tb.bucket.length := by
            simp [insertTb]
          by_cases hj : j = bucketOf s.tb (hashFn k)
          · subst hj
            rw [show chainAt (insertTb hashFn s.tb k ext) (bucketOf s.tb (hashFn k)) =
                newEntry hashFn s.tb k ext :: chainAt s.tb (bucketOf s.tb (hashFn k)) from
              getD_getElem?_set_self s.tb.bucket hi _ _] at he
            rcases List.mem_cons.mp he with rfl | hold
            · refine ⟨rfl, ?_⟩
              rw [hlen]
              rfl
            · obtain ⟨hh, hm⟩ := hI.placed _ e hold
              exact ⟨hh, by rw [hlen]; exact hm⟩
          · rw [show chainAt (insertTb hashFn s.tb k ext) j = chainAt s.tb j from
              getD_getElem?_set_ne s.tb.bucket (fun he2 => hj he2.symm) _ _] at he
            obtain ⟨hh, hm⟩ := hI.placed j e he
            exact ⟨hh, by rw [hlen]; exact hm⟩
        · apply ((hP.map Entry.key).symm.nodup)
          rw [List.map_cons, List.nodup_cons]
          refine ⟨?_, hI.keysNodup⟩
          intro hmem
          obtain ⟨e, he, hek⟩ := List.mem_map.mp hmem
          exact hknot e he hek
        · show s.tb.n + 1 = (live (insertTb hashFn s.tb k ext)).length
          rw [hP.length_eq]
          simp only [List.length_cons]
          rw [hI.countOk]
        · apply ((hAE.map Entry.eid).symm.nodup)
          rw [List.map_cons, List.nodup_cons]
          refine ⟨?_, hI.eidsNodup⟩
          intro hmem
          obtain ⟨e, he, hek⟩ := List.mem_map.mp hmem
          have := hI.eidsFresh e he
          rw [hek] at this
          simp [newEntry] at this
        · intro e he
          rcases List.mem_cons.mp (hAE.mem_iff.mp he) with rfl | hold
          · show (newEntry hashFn s.tb k ext).eid < s.tb.nextId + 1
            simp only [newEntry]
            omega
          · have := hI.eidsFresh e hold
            show e.eid < s.tb.nextId + 1
            omega
        · rcases hI.defOpen with h | h
          · exact Or.inl h
          · exact Or.inr h

theorem inv_delete {hashFn : Key → Nat} {p0 : Hashtb_param} {s : SysState}
    (hI : Inv hashFn p0 s) (k : Key) :
    Inv hashFn p0 (step hashFn (Op.delete k) s) := by
  rw [step_delete_eq]
  by_cases h0 : s.tb.refcount = 0
  · rw [if_pos h0]
    exact hI
  rw [if_neg h0]
  cases hu : (unlink k (chainAt s.tb (bucketOf s.tb (hashFn k)))).2 with
  | none =>
    rw [hashtb_delete_miss hu]
    refine ⟨hI.nbPos, hI.placed, hI.keysNodup, hI.countOk, ?_, ?_, hI.defOpen, ?_, ?_,
      hI.paramEq⟩
    · show ((live s.tb ++ s.tb.deferred ++ (s.reclaimed ++ [])).map Entry.eid).Nodup
      simpa [allEntries] using hI.eidsNodup
    · intro e he
      refine hI.eidsFresh e ?_
      simpa [allEntries] using he
    · show List.Perm (s.unlinked ++ []) ((s.reclaimed ++ []) ++ s.tb.deferred)
      simpa using hI.unlinkedPerm
    · show List.Sublist s.tb.deferred (s.unlinked ++ [])
      simpa using hI.deferredSub
  | some e =>
    have hi : bucketOf s.tb (hashFn k) < s.tb.bucket.length := Nat.mod_lt _ hI.nbPos
    obtain ⟨pre, post, hchain, hrem, hkey⟩ := unlink_some hu
    have hP : List.Perm (live s.tb) (e :: live (removeTb hashFn s.tb k)) := by
      have h2 := live_remove_perm hi hchain
      rw [← hrem] at h2
      exact h2
    have hnb2 : 0 < (removeTb hashFn s.tb k).bucket.length := by
      show 0 < (s.tb.bucket.set (bucketOf s.tb (hashFn k))
        (unlink k (chainAt s.tb (bucketOf s.tb (hashFn k)))).1).length
      rw [List.length_set]
      exact hI.nbPos
    have hplaced : ∀ j, ∀ e1 ∈ chainAt (removeTb hashFn s.tb k) j,
        e1.hash = hashFn e1.key ∧
        e1.hash % (removeTb hashFn s.tb k).bucket.length = j := by
      intro j e1 he1
      have hlen : (removeTb hashFn s.tb k).bucket.length = s.tb.bucket.length := by
        show (s.tb.bucket.set _ _).length = s.tb.bucket.length
        exact List.length_set _ _ _
      by_cases hj : j = bucketOf s.tb (hashFn k)
      · subst hj
        rw [show chainAt (removeTb hashFn s.tb k) (bucketOf s.tb (hashFn k)) =
            (unlink k (chainAt s.tb (bucketOf s.tb (hashFn k)))).1 from
          getD_getElem?_set_self s.tb.bucket hi _ _] at he1
        rw [hrem] at he1
        have hmem : e1 ∈ chainAt s.tb (bucketOf s.tb (hashFn k)) := by
          rw [hchain]
          rcases List.mem_append.mp he1 with h | h
          · exact List.mem_append.mpr (Or.inl h)
          · exact List.mem_append.mpr (Or.inr (List.mem_cons_of_mem e h))
        obtain ⟨hh, hm⟩ := hI.placed _ e1 hmem
        exact ⟨hh, by rw [hlen]; exact hm⟩
      · rw [show chainAt (removeTb hashFn s.tb k) j = chainAt s.tb j from
          getD_getElem?_set_ne s.tb.bucket (fun he2 => hj he2.symm) _ _] at he1
        obtain ⟨hh, hm⟩ := hI.placed j e1 he1
        exact ⟨hh, by rw [hlen]; exact hm⟩
    have hkeys : ((live (removeTb hashFn s.tb k)).map Entry.key).Nodup :=
      (((hP.map Entry.key).nodup) hI.keysNodup).of_cons
    have hcount : (removeTb hashFn s.tb k).n = (live (removeTb hashFn s.tb k)).length := by
      show s.tb.n - 1 = (live (removeTb hashFn s.tb k)).length
      have hl := hP.length_eq
      simp only [List.length_cons] at hl
      have hc := hI.countOk
      omega
    by_cases h1 : s.tb.refcount = 1
    · rw [hashtb_delete_last hu h1]
      have hAE : List.Perm
          (live (removeTb hashFn s.tb k) ++ s.tb.deferred ++ (s.reclaimed ++ [e]))
          (allEntries s) := by
        apply List.perm_iff_count.mpr
        intro x
        have hc := List.perm_iff_count.mp hP x
        simp only [allEntries, List.count_append, List.count_cons, List.count_nil] at hc ⊢
        omega
      refine ⟨hnb2, hplaced, hkeys, hcount, ?_, ?_, hI.defOpen, ?_, ?_, hI.paramEq⟩
      · exact ((hAE.symm.map Entry.eid).nodup hI.eidsNodup)
      · intro e1 he1
        exact hI.eidsFresh e1 (hAE.mem_iff.mp he1)
      · apply List.perm_iff_count.mpr
        intro x
        have hc := List.perm_iff_count.mp hI.unlinkedPerm x
        simp only [removeTb, Option.toList_some, List.count_append, List.count_cons,
          List.count_nil] at hc ⊢
        omega
      · show List.Sublist s.tb.deferred (s.unlinked ++ (some e).toList)
        exact hI.deferredSub.trans (List.sublist_append_left s.unlinked _)
    · rw [hashtb_delete_defer hu h1]
      have hAE : List.Perm
          (live (removeTb hashFn s.tb k) ++ (s.tb.deferred ++ [e]) ++ (s.reclaimed ++ []))
          (allEntries s) := by
        apply List.perm_iff_count.mpr
        intro x
        have hc := List.perm_iff_count.mp hP x
        simp only [allEntries, List.count_append, List.count_cons, List.count_nil] at hc ⊢
        omega
      refine ⟨hnb2, hplaced, hkeys, hcount, ?_, ?_,
        Or.inr (show 1 ≤ s.tb.refcount by omega), ?_, ?_, hI.paramEq⟩
      · exact ((hAE.symm.map Entry.eid).nodup hI.eidsNodup)
      · intro e1 he1
        exact hI.eidsFresh e1 (hAE.mem_iff.mp he1)
      · apply List.perm_iff_count.mpr
        intro x
        have hc := List.perm_iff_count.mp hI.unlinkedPerm x
        simp only [removeTb, Option.toList_some, List.count_append, List.count_cons,
          List.count_nil] at hc ⊢
        omega
      · show List.Sublist (s.tb.deferred ++ [e]) (s.unlinked ++ (some e).toList)
        exact hI.deferredSub.append (List.Sublist.refl _)

theorem inv_rehash {hashFn : Key → Nat} {p0 : Hashtb_param} {s : SysState}
    (hI : Inv hashFn p0 s) (nb : Nat) :
    Inv hashFn p0 (step hashFn (Op.rehash nb) s) := by
  rw [step_rehash_eq]
  by_cases h0 : s.tb.refcount ≠ 0
  · rw [hashtb_rehash, if_pos h0]
    exact hI
  · rw [hashtb_rehash, if_neg h0]
    push_neg at h0
    have hnb2 : 0 < max 1 nb := by omega
    have hPm : List.Perm (relink (live s.tb) (max 1 nb)).flatten (live s.tb) :=
      relink_perm (live s.tb) hnb2
    have hAE : List.Perm
        ((relink (live s.tb) (max 1 nb)).flatten ++ s.tb.deferred ++ s.reclaimed)
        (allEntries s) :=
      (hPm.append_right s.tb.deferred).append_right s.reclaimed
    refine ⟨?_, ?_, ?_, ?_, ?_, ?_, ?_, hI.unlinkedPerm, hI.deferredSub, hI.paramEq⟩
    · show 0 < (relink (live s.tb) (max 1 nb)).length
      rw [relink_length]
      omega
    · intro j e he
      have hlen : (relink (live s.tb) (max 1 nb)).length = max 1 nb := relink_length _ _
      by_cases hj : j < max 1 nb
      · rw [show chainAt { s.tb with bucket := relink (live s.tb) (max 1 nb) } j =
            (live s.tb).filter (fun e => e.hash % (max 1 nb) == j) from
          relink_chain (live s.tb) hj] at he
        obtain ⟨hmem, hfil⟩ := List.mem_filter.mp he
        obtain ⟨i, hic⟩ := mem_live_iff.mp hmem
        obtain ⟨hh, _⟩ := hI.placed i e hic
        refine ⟨hh, ?_⟩
        show e.hash % (relink (live s.tb) (max 1 nb)).length = j
        rw [hlen]
        simpa using hfil
      · rw [show chainAt { s.tb with bucket := relink (live s.tb) (max 1 nb) } j = [] from ?_] at he
        · cases he
        · rw [chainAt]
          show ((relink (live s.tb) (max 1 nb))[j]?).getD [] = []
          rw [List.getElem?_eq_none (by rw [hlen]; omega)]
          rfl
    · exact ((hPm.symm.map Entry.key).nodup hI.keysNodup)
    · show s.tb.n = (relink (live s.tb) (max 1 nb)).flatten.length
      rw [hPm.length_eq]
      exact hI.countOk
    · exact ((hAE.symm.map Entry.eid).nodup hI.eidsNodup)
    · intro e he
      exact hI.eidsFresh e (hAE.mem_iff.mp he)
    · rcases hI.defOpen with hd | hr
      · exact Or.inl hd
      · omega

theorem inv_step {hashFn : Key → Nat} {p0 : Hashtb_param} {s : SysState}
    (hI : Inv hashFn p0 s) : ∀ op : Op, Inv hashFn p0 (step hashFn op s)
  | Op.start => inv_start hI
  | Op.close => inv_close hI
  | Op.seek a key ext => inv_seek hI a key ext
  | Op.delete k => inv_delete hI k
  | Op.lookup _ => hI
  | Op.getParam => hI
  | Op.rehash nb => inv_rehash hI nb

theorem inv_runFrom {hashFn : Key → Nat} {p0 : Hashtb_param} :
    ∀ (ops : List Op) (s : SysState), Inv hashFn p0 s →
      Inv hashFn p0 (runFrom hashFn ops s)
  | [], _, hI => hI
  | op :: ops, s, hI => inv_runFrom ops (step hashFn op s) (inv_step hI op)

theorem chainAt_create (isz : Nat) (pOpt : Option Hashtb_param) (i : Nat) :
    chainAt (hashtb_create isz pOpt) i = [] := by
  rw [chainAt]
  by_cases h : i < initialBuckets
  · rw [show (hashtb_create isz pOpt).bucket[i]? = some [] from by
      simp [hashtb_create, List.getElem?_replicate, h]]
    rfl
  · rw [List.getElem?_eq_none (by simp [hashtb_create, initialBuckets] at h ⊢; omega)]
    rfl

theorem inv_init (hashFn : Key → Nat) (isz : Nat) (pOpt : Option Hashtb_param) :
    Inv hashFn (pOpt.getD defaultParam) (init isz pOpt) := by
  refine ⟨?_, ?_, ?_, rfl, ?_, ?_, Or.inl rfl, List.Perm.refl _, List.nil_sublist _, rfl⟩
  · show 0 < (List.replicate initialBuckets ([] : List Entry)).length
    simp [initialBuckets]
  · intro i e he
    have hc : chainAt (init isz pOpt).tb i = [] := chainAt_create isz pOpt i
    rw [hc] at he
    cases he
  · show ((live (hashtb_create isz pOpt)).map Entry.key).Nodup
    rw [show live (hashtb_create isz pOpt) = [] from rfl]
    exact List.nodup_nil
  · show ((allEntries (init isz pOpt)).map Entry.eid).Nodup
    rw [show allEntries (init isz pOpt) = [] from rfl]
    exact List.nodup_nil
  · intro e he
    rw [show allEntries (init isz pOpt) = [] from rfl] at he
    cases he

theorem inv_run (hashFn : Key → Nat) (isz : Nat) (pOpt : Option Hashtb_param)
    (ops : List Op) :
    Inv hashFn (pOpt.getD defaultParam) (run hashFn isz pOpt ops) :=
  inv_runFrom ops (init isz pOpt) (inv_init hashFn isz pOpt)

/-! ### Session lemmas -/

theorem nextPos_spec (buckets : List (List Entry)) (bs : List (List Entry)) :
    ∀ i : Nat, bs = buckets.drop i →
      (nextPos bs i).2 ++ (buckets.drop ((nextPos bs i).1 + 1)).flatten = bs.flatten ∧
      (nextPos bs i).2 <:+ chainAtB buckets (nextPos bs i).1 ∧
      i ≤ (nextPos bs i).1 := by
  induction bs with
  | nil =>
    intro i h
    have hd : buckets.drop (i + 1) = [] := by
      rw [← List.drop_drop 1 i, ← h]
      rfl
    refine ⟨?_, List.nil_suffix, Nat.le_refl i⟩
    rw [nextPos, hd]
    rfl
  | cons c bs2 ih =>
    intro i h
    have hd : buckets.drop (i + 1) = bs2 := by
      rw [← List.drop_drop 1 i, ← h]
      rfl
    cases c with
    | nil =>
      obtain ⟨h1, h2, h3⟩ := ih (i + 1) hd.symm
      refine ⟨?_, h2, ?_⟩
      · rw [show nextPos ([] :: bs2) i = nextPos bs2 (i + 1) from rfl]
        simpa using h1
      · rw [show nextPos ([] :: bs2) i = nextPos bs2 (i + 1) from rfl]
        omega
    | cons e c2 =>
      refine ⟨?_, ?_, Nat.le_refl i⟩
      · rw [show nextPos ((e :: c2) :: bs2) i = (i, e :: c2) from rfl, hd]
        rfl
      · rw [show nextPos ((e :: c2) :: bs2) i = (i, e :: c2) from rfl]
        have hbi : buckets[i]? = some (e :: c2) := by
          have := List.getElem?_drop buckets i 0
          rw [← h] at this
          simpa using this.symm
        rw [chainAtB, hbi]
        exact List.suffix_refl _

/-- The invariant of one enumeration session over a table whose entries at
session start were `start`: the cursor suffix really is a suffix of the
current chain, the visit history followed by the entries still to visit is
exactly the start list, and every entry still linked was in the start
list. -/
structure SInv (start : List Entry) (S : Session) : Prop where
  suff : S.rest <:+ chainAtB S.buckets S.bidx
  split : S.past ++ toVisit S = start
  subE : ∀ e ∈ S.buckets.flatten, e ∈ start

theorem sinv_sessionStart (buckets : List (List Entry)) :
    SInv buckets.flatten (sessionStart buckets) := by
  obtain ⟨h1, h2, _⟩ := nextPos_spec buckets buckets 0 rfl
  exact ⟨h2, by simpa [toVisit, sessionStart] using h1, fun e he => he⟩

theorem suffix_of_cons_suffix {α : Type} {e : α} {tl c : List α}
    (h : e :: tl <:+ c) : tl <:+ c := by
  obtain ⟨t, ht⟩ := h
  exact ⟨t ++ [e], by simpa using ht⟩

theorem bidx_lt_of_rest_ne {S : Session} (hne : S.rest ≠ [])
    (hsuff : S.rest <:+ chainAtB S.buckets S.bidx) : S.bidx < S.buckets.length := by
  by_contra hge
  have : chainAtB S.buckets S.bidx = [] := by
    rw [chainAtB, List.getElem?_eq_none (by omega)]
    rfl
  rw [this] at hsuff
  obtain ⟨t, ht⟩ := hsuff
  have := List.append_eq_nil.mp ht
  exact hne this.2

theorem advance_cons (buckets : List (List Entry)) (i : Nat) (e2 : Entry)
    (tl2 : List Entry) : advance buckets i (e2 :: tl2) = (i, e2 :: tl2) := rfl

theorem advance_nil (buckets : List (List Entry)) (i : Nat) :
    advance buckets i [] = nextPos (buckets.drop (i + 1)) (i + 1) := rfl

theorem hashtb_next_nil {S : Session} (h : S.rest = []) : hashtb_next S = S := by
  simp only [hashtb_next, h]

theorem hashtb_next_eq {S : Session} {e : Entry} {tl : List Entry}
    (h : S.rest = e :: tl) :
    hashtb_next S =
      { S with
          bidx := (advance S.buckets S.bidx tl).1
          rest := (advance S.buckets S.bidx tl).2
          past := S.past ++ [e] } := by
  simp only [hashtb_next, h]

theorem deleteCur_nil {S : Session} (h : S.rest = []) : deleteCur S = S := by
  simp only [deleteCur, h]

theorem take_sub_of_suffix {α : Type} {t c : List α} {r : List α}
    (h : t ++ r = c) : c.take (c.length - r.length) = t := by
  rw [← h]
  have hl : (t ++ r).length - r.length = t.length := by
    simp
  rw [hl, List.take_left]

theorem deleteCur_eq {S : Session} {e : Entry} {tl t : List Entry}
    (h : S.rest = e :: tl) (ht : t ++ e :: tl = chainAtB S.buckets S.bidx) :
    deleteCur S =
      { buckets := S.buckets.set S.bidx (t ++ tl)
        bidx := (advance (S.buckets.set S.bidx (t ++ tl)) S.bidx tl).1
        rest := (advance (S.buckets.set S.bidx (t ++ tl)) S.bidx tl).2
        past := S.past ++ [e] } := by
  have hpre : (chainAtB S.buckets S.bidx).take
      ((chainAtB S.buckets S.bidx).length - (e :: tl).length) = t :=
    take_sub_of_suffix ht
  simp only [deleteCur, h, hpre]

theorem toVisit_eq (S : Session) :
    toVisit S = S.rest ++ (S.buckets.drop (S.bidx + 1)).flatten := rfl

theorem sinv_next {start : List Entry} {S : Session} (hS : SInv start S) :
    SInv start (hashtb_next S) := by
  cases hrest : S.rest with
  | nil =>
    rw [hashtb_next_nil hrest]
    exact hS
  | cons e tl =>
    rw [hashtb_next_eq hrest]
    have hsplit := hS.split
    rw [toVisit_eq, hrest] at hsplit
    cases tl with
    | cons e2 tl2 =>
      refine ⟨?_, ?_, hS.subE⟩
      · show (advance S.buckets S.bidx (e2 :: tl2)).2 <:+
          chainAtB S.buckets (advance S.buckets S.bidx (e2 :: tl2)).1
        rw [advance_cons]
        apply suffix_of_cons_suffix
        rw [← hrest]
        exact hS.suff
      · show S.past ++ [e] ++ toVisit _ = start
        rw [toVisit_eq]
        show S.past ++ [e] ++
          ((advance S.buckets S.bidx (e2 :: tl2)).2 ++
            (S.buckets.drop ((advance S.buckets S.bidx (e2 :: tl2)).1 + 1)).flatten) = start
        rw [advance_cons]
        simpa [List.append_assoc] using hsplit
    | nil =>
      obtain ⟨h1, h2, _⟩ :=
        nextPos_spec S.buckets (S.buckets.drop (S.bidx + 1)) (S.bidx + 1) rfl
      refine ⟨?_, ?_, hS.subE⟩
      · show (advance S.buckets S.bidx []).2 <:+
          chainAtB S.buckets (advance S.buckets S.bidx []).1
        rw [advance_nil]
        exact h2
      · show S.past ++ [e] ++ toVisit _ = start
        rw [toVisit_eq]
        show S.past ++ [e] ++
          ((advance S.buckets S.bidx []).2 ++
            (S.buckets.drop ((advance S.buckets S.bidx []).1 + 1)).flatten) = start
        rw [advance_nil, h1]
        simpa [List.append_assoc] using hsplit

theorem sinv_deleteCur {start : List Entry} {S : Session} (hS : SInv start S) :
    SInv start (deleteCur S) := by
  cases hrest : S.rest with
  | nil =>
    rw [deleteCur_nil hrest]
    exact hS
  | cons e tl =>
    have hsuff : e :: tl <:+ chainAtB S.buckets S.bidx := by
      rw [← hrest]
      exact hS.suff
    have hbi : S.bidx < S.buckets.length := by
      refine bidx_lt_of_rest_ne ?_ hS.suff
      rw [hrest]
      simp
    obtain ⟨t, ht⟩ := hsuff
    have hsplit := hS.split
    rw [toVisit_eq, hrest] at hsplit
    have hgetel : S.buckets[S.bidx] = chainAtB S.buckets S.bidx := by
      rw [chainAtB, List.getElem?_eq_getElem hbi]
      rfl
    have hflat2 : ∀ e1 ∈ (S.buckets.set S.bidx (t ++ tl)).flatten, e1 ∈ start := by
      intro e1 he1
      rw [flatten_set S.buckets hbi] at he1
      apply hS.subE
      rw [flatten_split S.buckets hbi, hgetel, ← ht]
      rcases List.mem_append.mp he1 with h | h
      · rcases List.mem_append.mp h with h2 | h2
        · exact List.mem_append.mpr (Or.inl (List.mem_append.mpr (Or.inl h2)))
        · rcases List.mem_append.mp h2 with h3 | h3
          · refine List.mem_append.mpr (Or.inl (List.mem_append.mpr (Or.inr ?_)))
            exact List.mem_append.mpr (Or.inl h3)
          · refine List.mem_append.mpr (Or.inl (List.mem_append.mpr (Or.inr ?_)))
            exact List.mem_append.mpr (Or.inr (List.mem_cons_of_mem e h3))
      · exact List.mem_append.mpr (Or.inr h)
    have hdrop : (S.buckets.set S.bidx (t ++ tl)).drop (S.bidx + 1) =
        S.buckets.drop (S.bidx + 1) := drop_succ_set _ _ _
    rw [deleteCur_eq hrest ht]
    cases tl with
    | cons e2 tl2 =>
      refine ⟨?_, ?_, hflat2⟩
      · show (advance (S.buckets.set S.bidx (t ++ e2 :: tl2)) S.bidx (e2 :: tl2)).2 <:+
          chainAtB (S.buckets.set S.bidx (t ++ e2 :: tl2))
            (advance (S.buckets.set S.bidx (t ++ e2 :: tl2)) S.bidx (e2 :: tl2)).1
        rw [advance_cons,
          show chainAtB (S.buckets.set S.bidx (t ++ e2 :: tl2)) S.bidx = t ++ e2 :: tl2 from
            getD_getElem?_set_self S.buckets hbi _ _]
        exact List.suffix_append t (e2 :: tl2)
      · show S.past ++ [e] ++ toVisit _ = start
        rw [toVisit_eq]
        show S.past ++ [e] ++
          ((advance (S.buckets.set S.bidx (t ++ e2 :: tl2)) S.bidx (e2 :: tl2)).2 ++
            ((S.buckets.set S.bidx (t ++ e2 :: tl2)).drop
              ((advance (S.buckets.set S.bidx (t ++ e2 :: tl2)) S.bidx (e2 :: tl2)).1 +
                1)).flatten) = start
        rw [advance_cons, hdrop]
        simpa [List.append_assoc] using hsplit
    | nil =>
      obtain ⟨h1, h2, _⟩ :=
        nextPos_spec (S.buckets.set S.bidx (t ++ []))
          ((S.buckets.set S.bidx (t ++ [])).drop (S.bidx + 1)) (S.bidx + 1) rfl
      refine ⟨?_, ?_, hflat2⟩
      · show (advance (S.buckets.set S.bidx (t ++ [])) S.bidx []).2 <:+
          chainAtB (S.buckets.set S.bidx (t ++ []))
            (advance (S.buckets.set S.bidx (t ++ [])) S.bidx []).1
        rw [advance_nil]
        exact h2
      · show S.past ++ [e] ++ toVisit _ = start
        rw [toVisit_eq]
        show S.past ++ [e] ++
          ((advance (S.buckets.set S.bidx (t ++ [])) S.bidx []).2 ++
            ((S.buckets.set S.bidx (t ++ [])).drop
              ((advance (S.buckets.set S.bidx (t ++ [])) S.bidx []).1 + 1)).flatten) = start
        rw [advance_nil, h1, drop_succ_set]
        simpa [List.append_assoc] using hsplit

theorem sinv_sstep {start : List Entry} {S : Session} (hS : SInv start S) :
    ∀ op : SOp, SInv start (sstep op S)
  | SOp.next => sinv_next hS
  | SOp.delCur => sinv_deleteCur hS

theorem sinv_srun {start : List Entry} :
    ∀ (ops : List SOp) (S : Session), SInv start S → SInv start (srun ops S)
  | [], _, hS => hS
  | op :: ops, S, hS => sinv_srun ops (sstep op S) (sinv_sstep hS op)

/-- Modelled from the spec: whether a call is a `hashtb_delete`. -/
def isDelete : Op → Bool
  | Op.delete _ => true
  | _ => false

theorem live_mono {hashFn : Key → Nat} {p0 : Hashtb_param} {s : SysState}
    (hI : Inv hashFn p0 s) (op : Op) (hnd : isDelete op = false) {e : Entry}
    (he : e ∈ live s.tb) : e ∈ live (step hashFn op s).tb := by
  cases op with
  | start => exact he
  | close =>
    rw [step_close_eq]
    by_cases h0 : s.tb.refcount = 0
    · rw [if_pos h0]
      exact he
    rw [if_neg h0]
    by_cases h1 : s.tb.refcount = 1
    · rw [hashtb_end_drain h1]
      exact he
    · rw [hashtb_end_dec h1]
      exact he
  | seek a key ext =>
    rw [step_seek_eq]
    by_cases h0 : s.tb.refcount = 0
    · rw [if_pos h0]
      exact he
    rw [if_neg h0]
    match key with
    | none =>
      rw [hashtb_seek_null]
      exact he
    | some k2 =>
      cases hfl : findLive hashFn s.tb k2 with
      | some e2 =>
        rw [hashtb_seek_found hfl]
        exact he
      | none =>
        cases a with
        | false =>
          rw [hashtb_seek_nomem hfl]
          exact he
        | true =>
          rw [hashtb_seek_new hfl]
          have hi : bucketOf s.tb (hashFn k2) < s.tb.bucket.length :=
            Nat.mod_lt _ hI.nbPos
          exact (live_insert_perm hi (newEntry hashFn s.tb k2 ext)).mem_iff.mpr
            (List.mem_cons_of_mem _ he)
  | delete k =>
    simp [isDelete] at hnd
  | lookup k => exact he
  | getParam => exact he
  | rehash nb =>
    rw [step_rehash_eq, hashtb_rehash]
    by_cases h0 : s.tb.refcount ≠ 0
    · rw [if_pos h0]
      exact he
    · rw [if_neg h0]
      push_neg at h0
      exact (relink_perm (live s.tb) (by omega : 0 < max 1 nb)).mem_iff.mpr he

theorem findLive_preserved {hashFn : Key → Nat} {p0 : Hashtb_param} {s : SysState}
    (hI : Inv hashFn p0 s) {k : Key} {e : Entry}
    (hf : findLive hashFn s.tb k = some e) {op : Op} (hnd : isDelete op = false) :
    findLive hashFn (step hashFn op s).tb k = some e := by
  obtain ⟨he, hk⟩ := (findLive_some_iff hI).mp hf
  exact (findLive_some_iff (inv_step hI op)).mpr ⟨live_mono hI op hnd he, hk⟩

theorem findLive_preserved_run {hashFn : Key → Nat} {p0 : Hashtb_param} :
    ∀ (ops : List Op) (s : SysState), Inv hashFn p0 s →
      (∀ op ∈ ops, isDelete op = false) →
      ∀ {k : Key} {e : Entry}, findLive hashFn s.tb k = some e →
        findLive hashFn (runFrom hashFn ops s).tb k = some e
  | [], _, _, _, _, _, hf => hf
  | op :: ops, s, hI, hnd, _, _, hf =>
    findLive_preserved_run ops (step hashFn op s) (inv_step hI op)
      (fun o ho => hnd o (List.mem_cons_of_mem op ho))
      (findLive_preserved hI hf (hnd op (List.mem_cons_self op ops)))

theorem deleteCur_next_cursor {S : Session}
    (hsuff : S.rest <:+ chainAtB S.buckets S.bidx) (hne : S.rest ≠ []) :
    (deleteCur S).bidx = (hashtb_next S).bidx ∧
    (deleteCur S).rest = (hashtb_next S).rest ∧
    (deleteCur S).past = (hashtb_next S).past := by
  cases hrest : S.rest with
  | nil => exact absurd hrest hne
  | cons e tl =>
    have hsuff2 : e :: tl <:+ chainAtB S.buckets S.bidx := by
      rw [← hrest]
      exact hsuff
    obtain ⟨t, ht⟩ := hsuff2
    rw [deleteCur_eq hrest ht, hashtb_next_eq hrest]
    cases tl with
    | cons e2 tl2 =>
      rw [advance_cons, advance_cons]
      exact ⟨rfl, rfl, rfl⟩
    | nil =>
      rw [advance_nil, advance_nil, drop_succ_set]
      exact ⟨rfl, rfl, rfl⟩

/-! ### Stack lemmas -/

theorem stackRun_nil (st : Stack) : stackRun [] st = st := rfl

theorem stackRun_cons (b : Bool) (ops : List Bool) (st : Stack) :
    stackRun (b :: ops) st =
      stackRun ops
        (if b then ((push st).map Prod.fst).getD st else (pop st).getD st) := rfl

theorem stackStep_maxSize (st : Stack) (b : Bool) :
    (if b then ((push st).map Prod.fst).getD st else (pop st).getD st).maxSize =
      st.maxSize := by
  cases b with
  | true =>
    rw [if_pos rfl, push]
    by_cases h : st.top = st.maxSize
    · rw [if_pos h]
      rfl
    · rw [if_neg h]
      rfl
  | false =>
    rw [if_neg (by simp), pop]
    by_cases h : st.top = 0
    · rw [if_pos h]
      rfl
    · rw [if_neg h]
      rfl

theorem stackStep_top_le (st : Stack) (b : Bool) (h : st.top ≤ st.maxSize) :
    (if b then ((push st).map Prod.fst).getD st else (pop st).getD st).top ≤
      st.maxSize := by
  cases b with
  | true =>
    rw [if_pos rfl, push]
    by_cases hb : st.top = st.maxSize
    · rw [if_pos hb]
      exact h
    · rw [if_neg hb]
      show st.top + 1 ≤ st.maxSize
      omega
  | false =>
    rw [if_neg (by simp), pop]
    by_cases hb : st.top = 0
    · rw [if_pos hb]
      exact h
    · rw [if_neg hb]
      show st.top - 1 ≤ st.maxSize
      omega

theorem stackRun_maxSize : ∀ (ops : List Bool) (st : Stack),
    (stackRun ops st).maxSize = st.maxSize
  | [], _ => rfl
  | b :: ops, st => by
    rw [stackRun_cons, stackRun_maxSize ops, stackStep_maxSize]

theorem stackRun_bounded :
    ∀ (ops : List Bool) (st : Stack), st.top ≤ st.maxSize →
      (stackRun ops st).top ≤ (stackRun ops st).maxSize
  | [], _, h => h
  | b :: ops, st, h => by
    rw [stackRun_cons]
    apply stackRun_bounded ops
    rw [stackStep_maxSize]
    exact stackStep_top_le st b h

/-! ### The claims -/

/-- Claim C9: after `MARKHTE(ht, hte)`, `CHECKHTE(ht, hte)` evaluates to
true, and for any table at a different address `CHECKHTE(ht2, hte)` is
false: the tag stored in `priv[1]` is the bitwise complement of the owning
table address, a round trip that distinguishes distinct tables. -/
theorem C9_markhte_checkhte (w ht ht2 : Nat) (h1 : ht < 2 ^ w) (h2 : ht2 < 2 ^ w) :
    CHECKHTE w ht (MARKHTE w ht) = true ∧
    (ht2 ≠ ht → CHECKHTE w ht2 (MARKHTE w ht) = false) := by
  constructor
  · simp [CHECKHTE, MARKHTE]
  · intro hne
    rw [CHECKHTE, MARKHTE, beq_eq_false_iff_ne]
    simp only [complAddr]
    omega

/-- Witness for C9 at pointer width 8 and the addresses 5 and 6. -/
theorem C9_markhte_checkhte_witness :
    (5 : Nat) < 2 ^ 8 ∧ (6 : Nat) < 2 ^ 8 ∧ (6 : Nat) ≠ 5 ∧
    (CHECKHTE 8 5 (MARKHTE 8 5) = true ∧
      ((6 : Nat) ≠ 5 → CHECKHTE 8 6 (MARKHTE 8 5) = false)) :=
  ⟨by decide, by decide, by decide, C9_markhte_checkhte 8 5 6 (by decide) (by decide)⟩

/-- Claim C7: `hashtb_rehash` leaves the table completely unchanged whenever
an enumerator is open (silently); with no enumerator open it rebuilds the
bucket array, relinking every live entry by its cached hash modulo the new
bucket count, preserving the multiset of (key, data) entries. -/
theorem C7_rehash_frame (tb : Hashtb) (nb : Nat) :
    (1 ≤ tb.refcount → hashtb_rehash tb nb = tb) ∧
    (tb.refcount = 0 →
      List.Perm ((live (hashtb_rehash tb nb)).map (fun e => (e.key, e.data)))
        ((live tb).map (fun e => (e.key, e.data))) ∧
      (∀ i, ∀ e ∈ chainAt (hashtb_rehash tb nb) i,
        e.hash % (hashtb_rehash tb nb).bucket.length = i) ∧
      (hashtb_rehash tb nb).bucket.length = max 1 nb ∧
      hashtb_n (hashtb_rehash tb nb) = hashtb_n tb) := by
  constructor
  · intro h
    rw [hashtb_rehash, if_pos (by omega)]
  · intro h0
    have hre : hashtb_rehash tb nb = { tb with bucket := relink (live tb) (max 1 nb) } := by
      rw [hashtb_rehash, if_neg (by omega)]
    rw [hre]
    have hnb2 : 0 < max 1 nb := by omega
    refine ⟨(relink_perm (live tb) hnb2).map _, ?_, relink_length _ _, rfl⟩
    intro i e he
    by_cases hi : i < max 1 nb
    · rw [show chainAt { tb with bucket := relink (live tb) (max 1 nb) } i =
          (live tb).filter (fun e => e.hash % (max 1 nb) == i) from
        relink_chain _ hi] at he
      have hfil := (List.mem_filter.mp he).2
      rw [show ({ tb with bucket := relink (live tb) (max 1 nb) } : Hashtb).bucket.length =
        max 1 nb from relink_length _ _]
      simpa using hfil
    · rw [show chainAt { tb with bucket := relink (live tb) (max 1 nb) } i = [] from ?_] at he
      · cases he
      · rw [chainAt]
        show ((relink (live tb) (max 1 nb))[i]?).getD [] = []
        rw [List.getElem?_eq_none (by rw [relink_length]; omega)]
        rfl

/-- Witness for C7: both branches discharged at concrete tables. -/
theorem C7_rehash_frame_witness :
    1 ≤ (run demoHash 2 none [Op.start, Op.seek true (some [3]) []]).tb.refcount ∧
    hashtb_rehash (run demoHash 2 none [Op.start, Op.seek true (some [3]) []]).tb 4 =
      (run demoHash 2 none [Op.start, Op.seek true (some [3]) []]).tb ∧
    (run demoHash 2 none [Op.start, Op.seek true (some [3]) [], Op.close]).tb.refcount = 0 ∧
    (List.Perm
      ((live (hashtb_rehash
        (run demoHash 2 none [Op.start, Op.seek true (some [3]) [], Op.close]).tb 4)).map
          (fun e => (e.key, e.data)))
      ((live (run demoHash 2 none [Op.start, Op.seek true (some [3]) [], Op.close]).tb).map
        (fun e => (e.key, e.data))) ∧
    (∀ i, ∀ e ∈ chainAt (hashtb_rehash
        (run demoHash 2 none [Op.start, Op.seek true (some [3]) [], Op.close]).tb 4) i,
      e.hash % (hashtb_rehash
        (run demoHash 2 none
          [Op.start, Op.seek true (some [3]) [], Op.close]).tb 4).bucket.length = i) ∧
    (hashtb_rehash
      (run demoHash 2 none
        [Op.start, Op.seek true (some [3]) [], Op.close]).tb 4).bucket.length = max 1 4 ∧
    hashtb_n (hashtb_rehash
      (run demoHash 2 none [Op.start, Op.seek true (some [3]) [], Op.close]).tb 4) =
        hashtb_n (run demoHash 2 none [Op.start, Op.seek true (some [3]) [], Op.close]).tb) :=
  ⟨by decide, (C7_rehash_frame _ 4).1 (by decide), by decide,
    (C7_rehash_frame _ 4).2 (by decide)⟩

/-- Claim C10: `hashtb_get_param` returns the `finalize_data` saved at
creation and copies the saved creation parameters (finalize callback,
finalize_data, orders) into `*param`; the table is left unchanged. -/
theorem C10_get_param (hashFn : Key → Nat) (isz : Nat) (pOpt : Option Hashtb_param)
    (ops : List Op) (s : SysState) (hs : s = run hashFn isz pOpt ops) :
    hashtb_get_param s.tb =
      ((pOpt.getD defaultParam).finalize_data, pOpt.getD defaultParam) ∧
    step hashFn Op.getParam s = s := by
  have hI := inv_run hashFn isz pOpt ops
  rw [← hs] at hI
  exact ⟨by rw [hashtb_get_param, hI.paramEq], rfl⟩

/-- Witness for C10 at a concrete table with explicit parameters. -/
theorem C10_get_param_witness :
    run demoHash 1 (some { finalize := some 9, finalize_data := 4, orders := 2 })
        [Op.start, Op.seek true (some [1]) []] =
      run demoHash 1 (some { finalize := some 9, finalize_data := 4, orders := 2 })
        [Op.start, Op.seek true (some [1]) []] ∧
    (hashtb_get_param
        (run demoHash 1 (some { finalize := some 9, finalize_data := 4, orders := 2 })
          [Op.start, Op.seek true (some [1]) []]).tb =
      (((some { finalize := some 9, finalize_data := 4, orders := 2 } :
          Option Hashtb_param).getD defaultParam).finalize_data,
        (some { finalize := some 9, finalize_data := 4, orders := 2 } :
          Option Hashtb_param).getD defaultParam) ∧
    step demoHash Op.getParam
        (run demoHash 1 (some { finalize := some 9, finalize_data := 4, orders := 2 })
          [Op.start, Op.seek true (some [1]) []]) =
      run demoHash 1 (some { finalize := some 9, finalize_data := 4, orders := 2 })
        [Op.start, Op.seek true (some [1]) []]) :=
  ⟨rfl, C10_get_param demoHash 1 _ _ _ rfl⟩

/-- Claim C1: on a validly opened enumerator, the result of `hashtb_seek` is
exactly one of three values — 0 when an entry with the given key already
existed, 1 when the entry was newly created, and -1 on fatal failure
(allocation failure or NULL key); no other return value is possible. -/
theorem C1_seek_result_contract (hashFn : Key → Nat) (allocOk : Bool)
    (tb : Hashtb) (key : Option Key) (ext : List Nat) (hopen : 1 ≤ tb.refcount) :
    ((hashtb_seek hashFn allocOk tb key ext).1 = 0 ∨
      (hashtb_seek hashFn allocOk tb key ext).1 = 1 ∨
      (hashtb_seek hashFn allocOk tb key ext).1 = -1) ∧
    ((hashtb_seek hashFn allocOk tb key ext).1 = 0 ↔
      ∃ k e, key = some k ∧ findLive hashFn tb k = some e) ∧
    ((hashtb_seek hashFn allocOk tb key ext).1 = 1 ↔
      ∃ k, key = some k ∧ findLive hashFn tb k = none ∧ allocOk = true) ∧
    ((hashtb_seek hashFn allocOk tb key ext).1 = -1 ↔
      (key = none ∨
        ∃ k, key = some k ∧ findLive hashFn tb k = none ∧ allocOk = false)) := by
  match key with
  | none =>
    rw [hashtb_seek_null]
    refine ⟨Or.inr (Or.inr rfl), ?_, ?_, ?_⟩
    · constructor
      · intro h
        exact absurd (show (-1 : Int) = 0 from h) (by decide)
      · rintro ⟨k, e, hk, _⟩
        exact Option.noConfusion hk
    · constructor
      · intro h
        exact absurd (show (-1 : Int) = 1 from h) (by decide)
      · rintro ⟨k, hk, _, _⟩
        exact Option.noConfusion hk
    · exact ⟨fun _ => Or.inl rfl, fun _ => rfl⟩
  | some k =>
    cases hfl : findLive hashFn tb k with
    | some e =>
      rw [hashtb_seek_found hfl]
      refine ⟨Or.inl rfl, ?_, ?_, ?_⟩
      · exact ⟨fun _ => ⟨k, e, rfl, hfl⟩, fun _ => rfl⟩
      · constructor
        · intro h
          exact absurd (show (0 : Int) = 1 from h) (by decide)
        · rintro ⟨k2, hk2, hfl2, _⟩
          cases hk2
          rw [hfl] at hfl2
          exact Option.noConfusion hfl2
      · constructor
        · intro h
          exact absurd (show (0 : Int) = -1 from h) (by decide)
        · rintro (h | ⟨k2, hk2, hfl2, _⟩)
          · exact Option.noConfusion h
          · cases hk2
            rw [hfl] at hfl2
            exact Option.noConfusion hfl2
    | none =>
      cases allocOk with
      | true =>
        rw [hashtb_seek_new hfl]
        refine ⟨Or.inr (Or.inl rfl), ?_, ?_, ?_⟩
        · constructor
          · intro h
            exact absurd (show (1 : Int) = 0 from h) (by decide)
          · rintro ⟨k2, e2, hk2, hfl2⟩
            cases hk2
            rw [hfl] at hfl2
            exact Option.noConfusion hfl2
        · exact ⟨fun _ => ⟨k, rfl, hfl, rfl⟩, fun _ => rfl⟩
        · constructor
          · intro h
            exact absurd (show (1 : Int) = -1 from h) (by decide)
          · rintro (h | ⟨k2, hk2, _, hko⟩)
            · exact Option.noConfusion h
            · exact Bool.noConfusion hko
      | false =>
        rw [hashtb_seek_nomem hfl]
        refine ⟨Or.inr (Or.inr rfl), ?_, ?_, ?_⟩
        · constructor
          · intro h
            exact absurd (show (-1 : Int) = 0 from h) (by decide)
          · rintro ⟨k2, e2, hk2, hfl2⟩
            cases hk2
            rw [hfl] at hfl2
            exact Option.noConfusion hfl2
        · constructor
          · intro h
            exact absurd (show (-1 : Int) = 1 from h) (by decide)
          · rintro ⟨k2, hk2, _, hko⟩
            exact Bool.noConfusion hko
        · exact ⟨fun _ => Or.inr ⟨k, rfl, hfl, rfl⟩, fun _ => rfl⟩

/-- Witness for C1 at a concrete open table and key. -/
theorem C1_seek_result_contract_witness :
    1 ≤ (run demoHash 2 none [Op.start]).tb.refcount ∧
    (((hashtb_seek demoHash true (run demoHash 2 none [Op.start]).tb (some [1]) []).1 = 0 ∨
      (hashtb_seek demoHash true (run demoHash 2 none [Op.start]).tb (some [1]) []).1 = 1 ∨
      (hashtb_seek demoHash true (run demoHash 2 none [Op.start]).tb (some [1]) []).1 = -1) ∧
    ((hashtb_seek demoHash true (run demoHash 2 none [Op.start]).tb (some [1]) []).1 = 0 ↔
      ∃ k e, (some [1] : Option Key) = some k ∧
        findLive demoHash (run demoHash 2 none [Op.start]).tb k = some e) ∧
    ((hashtb_seek demoHash true (run demoHash 2 none [Op.start]).tb (some [1]) []).1 = 1 ↔
      ∃ k, (some [1] : Option Key) = some k ∧
        findLive demoHash (run demoHash 2 none [Op.start]).tb k = none ∧ true = true) ∧
    ((hashtb_seek demoHash true (run demoHash 2 none [Op.start]).tb (some [1]) []).1 = -1 ↔
      ((some [1] : Option Key) = none ∨
        ∃ k, (some [1] : Option Key) = some k ∧
          findLive demoHash (run demoHash 2 none [Op.start]).tb k = none ∧ true = false))) :=
  ⟨by decide, C1_seek_result_contract demoHash true (run demoHash 2 none [Op.start]).tb
    (some [1]) [] (by decide)⟩

/-- Claim C3: after any sequence of operations, `hashtb_n` equals the number
of live entries, which equals the sum of the bucket chain lengths; and
`hashtb_delete` decrements the count immediately, even when the free of the
entry is deferred. -/
theorem C3_count_invariant (hashFn : Key → Nat) (isz : Nat)
    (pOpt : Option Hashtb_param) (ops : List Op) (k : Key) (s : SysState)
    (hs : s = run hashFn isz pOpt ops) :
    hashtb_n s.tb = (live s.tb).length ∧
    (live s.tb).length = ((s.tb.bucket.map List.length).sum) ∧
    (1 ≤ s.tb.refcount → ∀ e, findLive hashFn s.tb k = some e →
      hashtb_n (step hashFn (Op.delete k) s).tb + 1 = hashtb_n s.tb ∧
      (2 ≤ s.tb.refcount →
        (step hashFn (Op.delete k) s).reclaimed = s.reclaimed ∧
        (step hashFn (Op.delete k) s).tb.deferred = s.tb.deferred ++ [e])) := by
  have hI := inv_run hashFn isz pOpt ops
  rw [← hs] at hI
  refine ⟨hI.countOk, ?_, ?_⟩
  · rw [live, List.length_flatten]
  · intro hopen e hfe
    have hu : (unlink k (chainAt s.tb (bucketOf s.tb (hashFn k)))).2 = some e := by
      rw [unlink_eq_find]
      exact hfe
    have hn1 : 1 ≤ s.tb.n := by
      have hmem : e ∈ live s.tb := ((findLive_some_iff hI).mp hfe).1
      have hlen : 1 ≤ (live s.tb).length := List.length_pos.mpr (List.ne_nil_of_mem hmem)
      have hc := hI.countOk
      omega
    rw [step_delete_eq, if_neg (by omega)]
    by_cases h1 : s.tb.refcount = 1
    · rw [hashtb_delete_last hu h1]
      constructor
      · show s.tb.n - 1 + 1 = s.tb.n
        omega
      · intro h2
        exact absurd h1 (by omega)
    · rw [hashtb_delete_defer hu h1]
      constructor
      · show s.tb.n - 1 + 1 = s.tb.n
        omega
      · intro _
        constructor
        · show s.reclaimed ++ [] = s.reclaimed
          rw [List.append_nil]
        · rfl

/-- Witness for C3: a run with two enumerators open and a live key; the
delete decrements the count while deferring the free. -/
theorem C3_count_invariant_witness :
    1 ≤ (run demoHash 2 none [Op.start, Op.start, Op.seek true (some [1]) []]).tb.refcount ∧
    2 ≤ (run demoHash 2 none [Op.start, Op.start, Op.seek true (some [1]) []]).tb.refcount ∧
    findLive demoHash
      (run demoHash 2 none [Op.start, Op.start, Op.seek true (some [1]) []]).tb [1] =
        some { eid := 0, hash := 157, key := [1], ext := [], data := [0, 0] } ∧
    (hashtb_n (run demoHash 2 none [Op.start, Op.start, Op.seek true (some [1]) []]).tb =
      (live (run demoHash 2 none [Op.start, Op.start, Op.seek true (some [1]) []]).tb).length ∧
    (live (run demoHash 2 none [Op.start, Op.start, Op.seek true (some [1]) []]).tb).length =
      (((run demoHash 2 none [Op.start, Op.start, Op.seek true (some [1]) []]).tb.bucket.map
        List.length).sum)) ∧
    (hashtb_n (step demoHash (Op.delete [1])
        (run demoHash 2 none [Op.start, Op.start, Op.seek true (some [1]) []])).tb + 1 =
      hashtb_n (run demoHash 2 none [Op.start, Op.start, Op.seek true (some [1]) []]).tb) ∧
    ((step demoHash (Op.delete [1])
        (run demoHash 2 none [Op.start, Op.start, Op.seek true (some [1]) []])).reclaimed =
      (run demoHash 2 none [Op.start, Op.start, Op.seek true (some [1]) []]).reclaimed ∧
    (step demoHash (Op.delete [1])
        (run demoHash 2 none [Op.start, Op.start, Op.seek true (some [1]) []])).tb.deferred =
      (run demoHash 2 none
        [Op.start, Op.start, Op.seek true (some [1]) []]).tb.deferred ++
        [{ eid := 0, hash := 157, key := [1], ext := [], data := [0, 0] }]) :=
  ⟨by decide, by decide, by decide,
    ⟨(C3_count_invariant demoHash 2 none _ [1] _ rfl).1,
      (C3_count_invariant demoHash 2 none _ [1] _ rfl).2.1⟩,
    ((C3_count_invariant demoHash 2 none _ [1] _ rfl).2.2 (by decide)
      { eid := 0, hash := 157, key := [1], ext := [], data := [0, 0] } (by decide)).1,
    ((C3_count_invariant demoHash 2 none _ [1] _ rfl).2.2 (by decide)
      { eid := 0, hash := 157, key := [1], ext := [], data := [0, 0] } (by decide)).2
      (by decide)⟩

/-- Counterexample to claim C2 as stated: deleting an entry while exactly one
enumerator (the deleting one) is open frees it immediately, so an unlinked
entry is freed while an enumerator on the table remains open, and before the
open-enumerator count reaches zero.  The trace opens one enumerator, inserts
key `[7]` and deletes it: afterwards the refcount is still 1, yet the one
unlinked entry has already been reclaimed. -/
theorem C2_counterexample :
    1 ≤ (run demoHash 0 none
      [Op.start, Op.seek true (some [7]) [], Op.delete [7]]).tb.refcount ∧
    (run demoHash 0 none
      [Op.start, Op.seek true (some [7]) [], Op.delete [7]]).reclaimed =
      (run demoHash 0 none
        [Op.start, Op.seek true (some [7]) [], Op.delete [7]]).unlinked ∧
    (run demoHash 0 none
      [Op.start, Op.seek true (some [7]) [], Op.delete [7]]).reclaimed.length = 1 := by
  decide

/-- Claim C2 (amended): an entry unlinked by `hashtb_delete` is never freed
while any enumerator other than the deleting one remains open: with at least
two enumerators open the delete frees nothing and appends the entry to the
pending list of the table (in unlink order — the pending list is always a
subsequence of the unlink history); when the deleting enumerator is the only
one open the entry is finalized and freed immediately; closing the last
enumerator drains the pending list completely, in order; every entry is freed
at most once (reclaimed identities are pairwise distinct), and once the
open-enumerator count is zero the reclaim history is exactly the unlink
history up to order, with the pending list empty.  Reclamation is one atomic
action running the configured finalize callback immediately before the
free. -/
theorem C2_deferred_reclamation (hashFn : Key → Nat) (isz : Nat)
    (pOpt : Option Hashtb_param) (ops : List Op) (k : Key) (s : SysState)
    (hs : s = run hashFn isz pOpt ops) :
    (2 ≤ s.tb.refcount →
      (step hashFn (Op.delete k) s).reclaimed = s.reclaimed ∧
      (∀ e, (hashtb_delete hashFn s.tb k).2.1 = some e →
        (step hashFn (Op.delete k) s).tb.deferred = s.tb.deferred ++ [e])) ∧
    (s.tb.refcount = 1 →
      ∀ e, (hashtb_delete hashFn s.tb k).2.1 = some e →
        (step hashFn (Op.delete k) s).reclaimed = s.reclaimed ++ [e]) ∧
    (s.tb.refcount = 1 →
      (step hashFn Op.close s).reclaimed = s.reclaimed ++ s.tb.deferred ∧
      (step hashFn Op.close s).tb.deferred = [] ∧
      (step hashFn Op.close s).tb.refcount = 0) ∧
    (s.reclaimed.map Entry.eid).Nodup ∧
    (s.tb.refcount = 0 → List.Perm s.reclaimed s.unlinked ∧ s.tb.deferred = []) ∧
    List.Sublist s.tb.deferred s.unlinked := by
  have hI := inv_run hashFn isz pOpt ops
  rw [← hs] at hI
  refine ⟨?_, ?_, ?_, ?_, ?_, hI.deferredSub⟩
  · intro h2
    cases hu : (unlink k (chainAt s.tb (bucketOf s.tb (hashFn k)))).2 with
    | none =>
      rw [step_delete_eq, if_neg (by omega), hashtb_delete_miss hu]
      refine ⟨List.append_nil _, ?_⟩
      intro e he
      exact Option.noConfusion (show (none : Option Entry) = some e from he)
    | some e0 =>
      rw [step_delete_eq, if_neg (by omega), hashtb_delete_defer hu (by omega)]
      refine ⟨List.append_nil _, ?_⟩
      intro e he
      have he2 : some e0 = some e := he
      cases he2
      rfl
  · intro h1 e he
    cases hu : (unlink k (chainAt s.tb (bucketOf s.tb (hashFn k)))).2 with
    | none =>
      rw [hashtb_delete_miss hu] at he
      exact Option.noConfusion he
    | some e0 =>
      rw [hashtb_delete_last hu h1] at he
      cases he
      rw [step_delete_eq, if_neg (by omega), hashtb_delete_last hu h1]
  · intro h1
    rw [step_close_eq, if_neg (by omega), hashtb_end_drain h1]
    exact ⟨rfl, rfl, rfl⟩
  · have hsub : List.Sublist s.reclaimed (allEntries s) :=
      List.sublist_append_right (live s.tb ++ s.tb.deferred) s.reclaimed
    exact hI.eidsNodup.sublist (hsub.map Entry.eid)
  · intro h0
    have hdef : s.tb.deferred = [] := by
      rcases hI.defOpen with hd | hr
      · exact hd
      · omega
    have hperm := hI.unlinkedPerm
    rw [hdef, List.append_nil] at hperm
    exact ⟨hperm.symm, hdef⟩

/-- Witness for C2 (amended): a trace with two enumerators open, one
deferred delete, and the drain at the last close. -/
theorem C2_deferred_reclamation_witness :
    2 ≤ (run demoHash 0 none
      [Op.start, Op.start, Op.seek true (some [1]) []]).tb.refcount ∧
    ((step demoHash (Op.delete [1])
        (run demoHash 0 none [Op.start, Op.start, Op.seek true (some [1]) []])).reclaimed =
      (run demoHash 0 none [Op.start, Op.start, Op.seek true (some [1]) []]).reclaimed ∧
    (∀ e, (hashtb_delete demoHash
        (run demoHash 0 none [Op.start, Op.start, Op.seek true (some [1]) []]).tb [1]).2.1 =
          some e →
      (step demoHash (Op.delete [1])
        (run demoHash 0 none [Op.start, Op.start, Op.seek true (some [1]) []])).tb.deferred =
        (run demoHash 0 none
          [Op.start, Op.start, Op.seek true (some [1]) []]).tb.deferred ++ [e])) ∧
    (run demoHash 0 none
      [Op.start, Op.start, Op.seek true (some [1]) [], Op.delete [1], Op.close]).tb.refcount
        = 1 ∧
    ((step demoHash Op.close
        (run demoHash 0 none
          [Op.start, Op.start, Op.seek true (some [1]) [],
            Op.delete [1], Op.close])).reclaimed =
      (run demoHash 0 none
        [Op.start, Op.start, Op.seek true (some [1]) [],
          Op.delete [1], Op.close]).reclaimed ++
        (run demoHash 0 none
          [Op.start, Op.start, Op.seek true (some [1]) [],
            Op.delete [1], Op.close]).tb.deferred ∧
    (step demoHash Op.close
        (run demoHash 0 none
          [Op.start, Op.start, Op.seek true (some [1]) [],
            Op.delete [1], Op.close])).tb.deferred = [] ∧
    (step demoHash Op.close
        (run demoHash 0 none
          [Op.start, Op.start, Op.seek true (some [1]) [],
            Op.delete [1], Op.close])).tb.refcount = 0) ∧
    ((run demoHash 0 none
      [Op.start, Op.start, Op.seek true (some [1]) [], Op.delete [1], Op.close,
        Op.close]).reclaimed.map Entry.eid).Nodup ∧
    (run demoHash 0 none
      [Op.start, Op.start, Op.seek true (some [1]) [], Op.delete [1], Op.close,
        Op.close]).tb.refcount = 0 ∧
    (List.Perm
      (run demoHash 0 none
        [Op.start, Op.start, Op.seek true (some [1]) [], Op.delete [1], Op.close,
          Op.close]).reclaimed
      (run demoHash 0 none
        [Op.start, Op.start, Op.seek true (some [1]) [], Op.delete [1], Op.close,
          Op.close]).unlinked ∧
    (run demoHash 0 none
      [Op.start, Op.start, Op.seek true (some [1]) [], Op.delete [1], Op.close,
        Op.close]).tb.deferred = []) :=
  ⟨by decide,
    (C2_deferred_reclamation demoHash 0 none
      [Op.start, Op.start, Op.seek true (some [1]) []] [1] _ rfl).1 (by decide),
    by decide,
    (C2_deferred_reclamation demoHash 0 none
      [Op.start, Op.start, Op.seek true (some [1]) [], Op.delete [1], Op.close] [1] _
      rfl).2.2.1 (by decide),
    (C2_deferred_reclamation demoHash 0 none
      [Op.start, Op.start, Op.seek true (some [1]) [], Op.delete [1], Op.close, Op.close]
      [1] _ rfl).2.2.2.1,
    by decide,
    (C2_deferred_reclamation demoHash 0 none
      [Op.start, Op.start, Op.seek true (some [1]) [], Op.delete [1], Op.close, Op.close]
      [1] _ rfl).2.2.2.2.1 (by decide)⟩

/-- Claim C6: for a non-null key, `hashtb_lookup` returns the user data of
the unique live entry whose key bytes match exactly, or NULL when no such
entry exists; the call mutates nothing, neither the entries and count of the
table nor its open-enumerator state. -/
theorem C6_lookup_pure (hashFn : Key → Nat) (isz : Nat) (pOpt : Option Hashtb_param)
    (ops : List Op) (k : Key) (s : SysState) (hs : s = run hashFn isz pOpt ops) :
    (∀ d, hashtb_lookup hashFn s.tb k = some d ↔
      ∃ e ∈ live s.tb, e.key = k ∧ e.data = d) ∧
    (hashtb_lookup hashFn s.tb k = none ↔ ∀ e ∈ live s.tb, e.key ≠ k) ∧
    (∀ e1 ∈ live s.tb, ∀ e2 ∈ live s.tb, e1.key = k → e2.key = k → e1 = e2) ∧
    step hashFn (Op.lookup k) s = s := by
  have hI := inv_run hashFn isz pOpt ops
  rw [← hs] at hI
  refine ⟨?_, ?_, ?_, rfl⟩
  · intro d
    rw [hashtb_lookup, Option.map_eq_some']
    constructor
    · rintro ⟨e, hfe, hd⟩
      obtain ⟨hmem, hkey⟩ := (findLive_some_iff hI).mp hfe
      exact ⟨e, hmem, hkey, hd⟩
    · rintro ⟨e, hmem, hkey, hd⟩
      exact ⟨e, (findLive_some_iff hI).mpr ⟨hmem, hkey⟩, hd⟩
  · rw [hashtb_lookup, Option.map_eq_none']
    exact findLive_none_iff hI
  · intro e1 h1 e2 h2 hk1 hk2
    exact List.inj_on_of_nodup_map hI.keysNodup h1 h2 (by rw [hk1, hk2])

/-- Witness for C6 at a table holding key `[1]`, looked up with keys `[1]`
and `[2]`. -/
theorem C6_lookup_pure_witness :
    ((∀ d, hashtb_lookup demoHash
        (run demoHash 2 none [Op.start, Op.seek true (some [1]) []]).tb [1] = some d ↔
      ∃ e ∈ live (run demoHash 2 none [Op.start, Op.seek true (some [1]) []]).tb,
        e.key = [1] ∧ e.data = d) ∧
    (hashtb_lookup demoHash
        (run demoHash 2 none [Op.start, Op.seek true (some [1]) []]).tb [1] = none ↔
      ∀ e ∈ live (run demoHash 2 none [Op.start, Op.seek true (some [1]) []]).tb,
        e.key ≠ [1]) ∧
    (∀ e1 ∈ live (run demoHash 2 none [Op.start, Op.seek true (some [1]) []]).tb,
      ∀ e2 ∈ live (run demoHash 2 none [Op.start, Op.seek true (some [1]) []]).tb,
        e1.key = [1] → e2.key = [1] → e1 = e2) ∧
    step demoHash (Op.lookup [1])
        (run demoHash 2 none [Op.start, Op.seek true (some [1]) []]) =
      run demoHash 2 none [Op.start, Op.seek true (some [1]) []]) ∧
    hashtb_lookup demoHash
      (run demoHash 2 none [Op.start, Op.seek true (some [1]) []]).tb [2] = none :=
  ⟨C6_lookup_pure demoHash 2 none [Op.start, Op.seek true (some [1]) []] [1] _ rfl,
    by decide⟩

/-- Claim C5: `hashtb_seek` is idempotent for existence detection: a first
seek of `(key, keysize)` with allocation available succeeds (result 0 or 1)
positioned on some entry, and after any further calls that include no delete,
a second seek of the same key returns 0 (`HT_OLD_ENTRY`), leaves the table
unchanged, and exposes the same entry — hence the same user-data
reference. -/
theorem C5_seek_idempotent (hashFn : Key → Nat) (isz : Nat)
    (pOpt : Option Hashtb_param) (ops1 ops2 : List Op) (k : Key)
    (ext1 ext2 : List Nat) (a2 : Bool) (s1 : SysState)
    (hs : s1 = run hashFn isz pOpt ops1)
    (hopen : 1 ≤ s1.tb.refcount)
    (hnd : ∀ op ∈ ops2, isDelete op = false) :
    ((hashtb_seek hashFn true s1.tb (some k) ext1).1 = 0 ∨
      (hashtb_seek hashFn true s1.tb (some k) ext1).1 = 1) ∧
    ∃ e, (hashtb_seek hashFn true s1.tb (some k) ext1).2.2 = some e ∧
      hashtb_seek hashFn a2
          (runFrom hashFn ops2 (step hashFn (Op.seek true (some k) ext1) s1)).tb
          (some k) ext2 =
        (0, (runFrom hashFn ops2 (step hashFn (Op.seek true (some k) ext1) s1)).tb,
          some e) := by
  have hI : Inv hashFn (pOpt.getD defaultParam) s1 := by
    rw [hs]
    exact inv_run hashFn isz pOpt ops1
  have hI2 := inv_step hI (Op.seek true (some k) ext1)
  cases hfl : findLive hashFn s1.tb k with
  | some e0 =>
    refine ⟨by rw [hashtb_seek_found hfl]; exact Or.inl rfl, e0,
      by rw [hashtb_seek_found hfl], ?_⟩
    have hf1 : findLive hashFn (step hashFn (Op.seek true (some k) ext1) s1).tb k =
        some e0 := by
      rw [step_seek_eq, if_neg (by omega), hashtb_seek_found hfl]
      exact hfl
    exact hashtb_seek_found (findLive_preserved_run ops2 _ hI2 hnd hf1)
  | none =>
    refine ⟨by rw [hashtb_seek_new hfl]; exact Or.inr rfl,
      newEntry hashFn s1.tb k ext1, by rw [hashtb_seek_new hfl], ?_⟩
    have hi : bucketOf s1.tb (hashFn k) < s1.tb.bucket.length :=
      Nat.mod_lt _ hI.nbPos
    have hf1 : findLive hashFn (step hashFn (Op.seek true (some k) ext1) s1).tb k =
        some (newEntry hashFn s1.tb k ext1) := by
      apply (findLive_some_iff hI2).mpr
      refine ⟨?_, rfl⟩
      rw [step_seek_eq, if_neg (by omega), hashtb_seek_new hfl]
      exact (live_insert_perm hi _).mem_iff.mpr (List.mem_cons_self _ _)
    exact hashtb_seek_found (findLive_preserved_run ops2 _ hI2 hnd hf1)

/-- Witness for C5: insert key `[1]`, run an unrelated seek in between, then
seek `[1]` again. -/
theorem C5_seek_idempotent_witness :
    1 ≤ (run demoHash 2 none [Op.start]).tb.refcount ∧
    (∀ op ∈ [Op.seek true (some [2]) []], isDelete op = false) ∧
    (((hashtb_seek demoHash true (run demoHash 2 none [Op.start]).tb (some [1]) []).1 = 0 ∨
      (hashtb_seek demoHash true (run demoHash 2 none [Op.start]).tb (some [1]) []).1 = 1) ∧
    ∃ e, (hashtb_seek demoHash true
        (run demoHash 2 none [Op.start]).tb (some [1]) []).2.2 = some e ∧
      hashtb_seek demoHash true
          (runFrom demoHash [Op.seek true (some [2]) []]
            (step demoHash (Op.seek true (some [1]) [])
              (run demoHash 2 none [Op.start]))).tb
          (some [1]) [] =
        (0, (runFrom demoHash [Op.seek true (some [2]) []]
            (step demoHash (Op.seek true (some [1]) [])
              (run demoHash 2 none [Op.start]))).tb,
          some e)) :=
  ⟨by decide, by decide,
    C5_seek_idempotent demoHash 2 none [Op.start] [Op.seek true (some [2]) []]
      [1] [] [] true _ rfl (by decide) (by decide)⟩

/-- Claim C8: `push` fails exactly when the depth is at the bound, and
otherwise creates a new empty table at the next depth and increments the
depth; `pop` is a fatal precondition violation exactly when the depth is 0,
and otherwise destroys exactly the top table and decrements the depth; along
any sequence of pushes and pops from a fresh stack the depth stays
within the bound. -/
theorem C8_stack_push_pop (st : Stack) (ops : List Bool) (maxSize isz : Nat) :
    (push st = none ↔ st.top = st.maxSize) ∧
    (st.top ≠ st.maxSize →
      push st =
        some
          ({ st with
              top := st.top + 1
              tables := st.tables ++ [hashtb_create st.item_size none] },
            st.top) ∧
      hashtb_n (hashtb_create st.item_size none) = 0) ∧
    (pop st = none ↔ st.top = 0) ∧
    (st.top ≠ 0 →
      pop st = some { st with top := st.top - 1, tables := st.tables.dropLast }) ∧
    (stackRun ops (stack_init maxSize isz)).top ≤ maxSize := by
  refine ⟨?_, ?_, ?_, ?_, ?_⟩
  · rw [push]
    by_cases h : st.top = st.maxSize
    · simp [h]
    · simp [h]
  · intro h
    rw [push, if_neg h]
    exact ⟨rfl, rfl⟩
  · rw [pop]
    by_cases h : st.top = 0
    · simp [h]
    · simp [h]
  · intro h
    rw [pop, if_neg h]
  · have hb := stackRun_bounded ops (stack_init maxSize isz) (Nat.zero_le _)
    rw [stackRun_maxSize] at hb
    exact hb

/-- Witness for C8 on a stack with bound 2: a push from depth 0 and a pop
from depth 1, plus the depth bound along a concrete overlong sequence. -/
theorem C8_stack_push_pop_witness :
    (stack_init 2 4).top ≠ (stack_init 2 4).maxSize ∧
    (push (stack_init 2 4) =
      some
        ({ stack_init 2 4 with
            top := (stack_init 2 4).top + 1
            tables := (stack_init 2 4).tables ++
              [hashtb_create (stack_init 2 4).item_size none] },
          (stack_init 2 4).top) ∧
      hashtb_n (hashtb_create (stack_init 2 4).item_size none) = 0) ∧
    (stackRun [true] (stack_init 2 4)).top ≠ 0 ∧
    pop (stackRun [true] (stack_init 2 4)) =
      some { stackRun [true] (stack_init 2 4) with
          top := (stackRun [true] (stack_init 2 4)).top - 1
          tables := (stackRun [true] (stack_init 2 4)).tables.dropLast } ∧
    (push (stackRun [true, true] (stack_init 2 4)) = none ↔
      (stackRun [true, true] (stack_init 2 4)).top =
        (stackRun [true, true] (stack_init 2 4)).maxSize) ∧
    (pop (stack_init 2 4) = none ↔ (stack_init 2 4).top = 0) ∧
    (stackRun [true, true, true, true, false, false, false] (stack_init 2 4)).top ≤ 2 :=
  ⟨by decide,
    (C8_stack_push_pop (stack_init 2 4) [] 2 4).2.1 (by decide),
    by decide,
    (C8_stack_push_pop (stackRun [true] (stack_init 2 4)) [] 2 4).2.2.2.1 (by decide),
    (C8_stack_push_pop (stackRun [true, true] (stack_init 2 4)) [] 2 4).1,
    (C8_stack_push_pop (stack_init 2 4) [] 2 4).2.2.1,
    (C8_stack_push_pop (stack_init 2 4)
      [true, true, true, true, false, false, false] 2 4).2.2.2.2⟩

/-- Claim C4: within one enumeration session, `hashtb_delete` on the current
entry leaves the enumerator positioned exactly where `hashtb_next` would
(same advance semantics); the visit history followed by the entries still to
be visited is exactly the entry list at session start, so deleting the
current entry never causes a previously visited entry to be revisited and
never causes a still-present entry other than the deleted one to be
skipped. -/
theorem C4_delete_while_iterating (bs : List (List Entry)) (ops : List SOp)
    (hnd : (bs.flatten).Nodup) (S : Session) (hS : S = srun ops (sessionStart bs)) :
    (S.rest ≠ [] →
      (deleteCur S).bidx = (hashtb_next S).bidx ∧
      (deleteCur S).rest = (hashtb_next S).rest ∧
      (deleteCur S).past = (hashtb_next S).past) ∧
    S.past ++ toVisit S = bs.flatten ∧
    S.past.Nodup ∧
    (∀ e ∈ toVisit S, e ∉ S.past) ∧
    (∀ e ∈ S.buckets.flatten, e ∈ S.past ∨ e ∈ toVisit S) := by
  have hSI : SInv bs.flatten S := by
    rw [hS]
    exact sinv_srun ops _ (sinv_sessionStart bs)
  have hsn : (S.past ++ toVisit S).Nodup := by
    rw [hSI.split]
    exact hnd
  obtain ⟨hpn, _, hdisj⟩ := List.nodup_append.mp hsn
  refine ⟨fun hne => deleteCur_next_cursor hSI.suff hne, hSI.split, hpn, ?_, ?_⟩
  · intro e hev hep
    exact hdisj hep hev
  · intro e he
    have hmem : e ∈ S.past ++ toVisit S := by
      rw [hSI.split]
      exact hSI.subE e he
    exact List.mem_append.mp hmem

/-- Witness for C4: four singleton entries in three buckets; advance, delete,
advance. -/
theorem C4_delete_while_iterating_witness :
    (([[{ eid := 1, hash := 0, key := [1], ext := [], data := [] },
        { eid := 2, hash := 0, key := [2], ext := [], data := [] }], [],
       [{ eid := 3, hash := 2, key := [3], ext := [], data := [] }]] :
        List (List Entry)).flatten).Nodup ∧
    ((srun [SOp.next, SOp.delCur]
        (sessionStart
          [[{ eid := 1, hash := 0, key := [1], ext := [], data := [] },
            { eid := 2, hash := 0, key := [2], ext := [], data := [] }], [],
           [{ eid := 3, hash := 2, key := [3], ext := [], data := [] }]])).rest ≠ [] →
      (deleteCur (srun [SOp.next, SOp.delCur]
        (sessionStart
          [[{ eid := 1, hash := 0, key := [1], ext := [], data := [] },
            { eid := 2, hash := 0, key := [2], ext := [], data := [] }], [],
           [{ eid := 3, hash := 2, key := [3], ext := [], data := [] }]]))).bidx =
        (hashtb_next (srun [SOp.next, SOp.delCur]
          (sessionStart
            [[{ eid := 1, hash := 0, key := [1], ext := [], data := [] },
              { eid := 2, hash := 0, key := [2], ext := [], data := [] }], [],
             [{ eid := 3, hash := 2, key := [3], ext := [], data := [] }]]))).bidx ∧
      (deleteCur (srun [SOp.next, SOp.delCur]
        (sessionStart
          [[{ eid := 1, hash := 0, key := [1], ext := [], data := [] },
            { eid := 2, hash := 0, key := [2], ext := [], data := [] }], [],
           [{ eid := 3, hash := 2, key := [3], ext := [], data := [] }]]))).rest =
        (hashtb_next (srun [SOp.next, SOp.delCur]
          (sessionStart
            [[{ eid := 1, hash := 0, key := [1], ext := [], data := [] },
              { eid := 2, hash := 0, key := [2], ext := [], data := [] }], [],
             [{ eid := 3, hash := 2, key := [3], ext := [], data := [] }]]))).rest ∧
      (deleteCur (srun [SOp.next, SOp.delCur]
        (sessionStart
          [[{ eid := 1, hash := 0, key := [1], ext := [], data := [] },
            { eid := 2, hash := 0, key := [2], ext := [], data := [] }], [],
           [{ eid := 3, hash := 2, key := [3], ext := [], data := [] }]]))).past =
        (hashtb_next (srun [SOp.next, SOp.delCur]
          (sessionStart
            [[{ eid := 1, hash := 0, key := [1], ext := [], data := [] },
              { eid := 2, hash := 0, key := [2], ext := [], data := [] }], [],
             [{ eid := 3, hash := 2, key := [3], ext := [], data := [] }]]))).past) ∧
    (srun [SOp.next, SOp.delCur]
      (sessionStart
        [[{ eid := 1, hash := 0, key := [1], ext := [], data := [] },
          { eid := 2, hash := 0, key := [2], ext := [], data := [] }], [],
         [{ eid := 3, hash := 2, key := [3], ext := [], data := [] }]])).past ++
      toVisit (srun [SOp.next, SOp.delCur]
        (sessionStart
          [[{ eid := 1, hash := 0, key := [1], ext := [], data := [] },
            { eid := 2, hash := 0, key := [2], ext := [], data := [] }], [],
           [{ eid := 3, hash := 2, key := [3], ext := [], data := [] }]])) =
      ([[{ eid := 1, hash := 0, key := [1], ext := [], data := [] },
         { eid := 2, hash := 0, key := [2], ext := [], data := [] }], [],
        [{ eid := 3, hash := 2, key := [3], ext := [], data := [] }]] :
         List (List Entry)).flatten ∧
    (srun [SOp.next, SOp.delCur]
      (sessionStart
        [[{ eid := 1, hash := 0, key := [1], ext := [], data := [] },
          { eid := 2, hash := 0, key := [2], ext := [], data := [] }], [],
         [{ eid := 3, hash := 2, key := [3], ext := [], data := [] }]])).past.Nodup ∧
    (∀ e ∈ toVisit (srun [SOp.next, SOp.delCur]
        (sessionStart
          [[{ eid := 1, hash := 0, key := [1], ext := [], data := [] },
            { eid := 2, hash := 0, key := [2], ext := [], data := [] }], [],
           [{ eid := 3, hash := 2, key := [3], ext := [], data := [] }]])),
      e ∉ (srun [SOp.next, SOp.delCur]
        (sessionStart
          [[{ eid := 1, hash := 0, key := [1], ext := [], data := [] },
            { eid := 2, hash := 0, key := [2], ext := [], data := [] }], [],
           [{ eid := 3, hash := 2, key := [3], ext := [], data := [] }]])).past) ∧
    (∀ e ∈ (srun [SOp.next, SOp.delCur]
        (sessionStart
          [[{ eid := 1, hash := 0, key := [1], ext := [], data := [] },
            { eid := 2, hash := 0, key := [2], ext := [], data := [] }], [],
           [{ eid := 3, hash := 2, key := [3], ext := [], data := [] }]])).buckets.flatten,
      e ∈ (srun [SOp.next, SOp.delCur]
        (sessionStart
          [[{ eid := 1, hash := 0, key := [1], ext := [], data := [] },
            { eid := 2, hash := 0, key := [2], ext := [], data := [] }], [],
           [{ eid := 3, hash := 2, key := [3], ext := [], data := [] }]])).past ∨
      e ∈ toVisit (srun [SOp.next, SOp.delCur]
        (sessionStart
          [[{ eid := 1, hash := 0, key := [1], ext := [], data := [] },
            { eid := 2, hash := 0, key := [2], ext := [], data := [] }], [],
           [{ eid := 3, hash := 2, key := [3], ext := [], data := [] }]]))) :=
  ⟨by decide,
    C4_delete_while_iterating
      [[{ eid := 1, hash := 0, key := [1], ext := [], data := [] },
        { eid := 2, hash := 0, key := [2], ext := [], data := [] }], [],
       [{ eid := 3, hash := 2, key := [3], ext := [], data := [] }]]
      [SOp.next, SOp.delCur] (by decide) _ rfl⟩

end HashtbSpec
